import Mathlib

/-!
Verification development for the Middle-earth kingdom-map extraction pipeline
(`LOTRAOM_FactionMap/Tools/claudeweb/extract_kingdoms.py`).

The Python pipeline is shallowly embedded: per-pixel label fields become
functions over `Fin h × Fin w`, floating-point channel means become exact
rationals, mutable dictionaries become explicit state passing, and fallible
NumPy scalar indexing becomes `Except`-valued reads.  Comparisons of the form
`sqrt d < t` with `t > 0` are embedded in the equivalent squared form
`d < t ^ 2`, which keeps every definition inside `ℚ` and executable.
-/

namespace KingdomExtract

/-! ### Colors and the hue-aware normal merge rule (lines 254-285) -/

/-- An RGB color triple; exact-rational embedding of the float channel means. -/
abbrev Color := ℚ × ℚ × ℚ

/-- Squared RGB Euclidean distance, `np.sum((c1 - c2)**2)`. -/
def distSq (c1 c2 : Color) : ℚ :=
  (c1.1 - c2.1) ^ 2 + (c1.2.1 - c2.2.1) ^ 2 + (c1.2.2 - c2.2.2) ^ 2

/-- Scalar multiple of a color, `c * sz`. -/
def cMul (k : ℚ) (c : Color) : Color := (k * c.1, k * c.2.1, k * c.2.2)

/-- Componentwise sum of two colors. -/
def cAdd (a b : Color) : Color := (a.1 + b.1, a.2.1 + b.2.1, a.2.2 + b.2.2)

/-- Componentwise division of a color by a scalar, `csum / total`. -/
def cDiv (c : Color) (t : ℚ) : Color := (c.1 / t, c.2.1 / t, c.2.2 / t)

/-- Channel mean of one color, `np.mean(c)`. -/
def meanChan (c : Color) : ℚ := (c.1 + c.2.1 + c.2.2) / 3

/-- Circular hue difference, `min(abs(h1 - h2), 180 - abs(h1 - h2))`. -/
def hueDiff (h1 h2 : ℚ) : ℚ := min |h1 - h2| (180 - |h1 - h2|)

/-- Brightness-adaptive base threshold (line 266):
`28 if bri < 50 else (35 if bri < 80 else (40 if bri < 120 else 44))`. -/
def baseThr (bri : ℚ) : ℚ :=
  if bri < 50 then 28 else if bri < 80 then 35 else if bri < 120 then 40 else 44

/-- Cumulative hue/saturation scaling factor applied to the base threshold
(lines 269-275).  Dark pairs (`bri < 80`) scale on hue cutoffs 5/10 and on the
saturation cutoff 20; bright pairs scale only on hue cutoffs 6/12. -/
def hueSatFactor (bri hd sd : ℚ) : ℚ :=
  if bri < 80 then
    (if 10 < hd then 3 / 10 else if 5 < hd then 1 / 2 else 1) *
      (if 20 < sd then 3 / 5 else 1)
  else
    if 12 < hd then 1 / 2 else if 6 < hd then 3 / 4 else 1

/-- The adjusted merge threshold: base threshold scaled by the hue/sat factor. -/
def adjThr (bri hd sd : ℚ) : ℚ := baseThr bri * hueSatFactor bri hd sd

/-- The normal (neither side protected) merge decision of lines 254-277:
merge iff `dist_rgb < base` after brightness/hue/saturation adjustment.
The float comparison `sqrt d2 < base` is embedded as `d2 < base ^ 2`. -/
def normalMergeCond (c1 c2 : Color) (h1 h2 s1 s2 : ℚ) : Bool :=
  let bri := (meanChan c1 + meanChan c2) / 2
  decide (distSq c1 c2 < adjThr bri (hueDiff h1 h2) |s1 - s2| ^ 2)

/-! ### Union-find with path halving (lines 195-206)

The Python `find` loops until `parent[x] == x`, halving the path as it goes;
termination relies on forest acyclicity.  The embedding passes explicit fuel;
all invariants below are proved for every fuel value, so the top-level
instantiation (`number of regions + 1`) is covered. -/

/-- Path-halving find: returns the located representative together with the
updated (compressed) parent map. -/
def findH : ℕ → (ℕ → ℕ) → ℕ → ℕ × (ℕ → ℕ)
  | 0, p, x => (x, p)
  | f + 1, p, x =>
    if p x = x then (x, p)
    else findH f (Function.update p x (p (p x))) (p (p x))

/-- Union by rank (lines 201-206): find both roots, attach the lower-rank root
below the higher, bump the rank on ties.  Returns parent and rank maps. -/
def unionH (f : ℕ) (p : ℕ → ℕ) (rk : ℕ → ℕ) (a b : ℕ) : (ℕ → ℕ) × (ℕ → ℕ) :=
  let fa := findH f p a
  let fb := findH f fa.2 b
  if fa.1 = fb.1 then (fb.2, rk)
  else
    let pa := if rk fa.1 < rk fb.1 then fb.1 else fa.1
    let pb := if rk fa.1 < rk fb.1 then fa.1 else fb.1
    (Function.update fb.2 pb pa,
     if rk pa = rk pb then Function.update rk pa (rk pa + 1) else rk)

/-! ### The merge passes (lines 191-289) -/

/-- Static per-run inputs of the merge stage: the surviving fine-region ids,
the adjacency candidate pairs, the per-region mean color / pixel count /
mean hue / mean saturation, and the protected-region id set. -/
structure MergeInput where
  ids : List ℕ
  cand : List (ℕ × ℕ)
  color : ℕ → Color
  size : ℕ → ℚ
  hue : ℕ → ℚ
  sat : ℕ → ℚ
  prot : List ℕ

/-- Mutable state of the merge loop: union-find parent and rank maps, the
per-root aggregate dictionaries (`gavg`, `gsz`, `ghue`, `gsat`) and the
merge counter of the current pass. -/
structure MSt where
  parent : ℕ → ℕ
  rnk : ℕ → ℕ
  gavg : ℕ → Option Color
  gsz : ℕ → Option ℚ
  ghue : ℕ → Option ℚ
  gsat : ℕ → Option ℚ
  merged : ℕ

/-- Append a member to the association list of pass-start groups,
mirroring `groups[root].append(rid)` on a `defaultdict(list)`. -/
def appendGroup : List (ℕ × List ℕ) → ℕ → ℕ → List (ℕ × List ℕ)
  | [], r, m => [(r, [m])]
  | (k, l) :: rest, r, m =>
    if k = r then (k, l ++ [m]) :: rest else (k, l) :: appendGroup rest r m

/-- Pass-start group computation (lines 214-216): for every region id, find its
current root (compressing paths) and append it to that root's group. -/
def computeGroups (f : ℕ) (ids : List ℕ) (p : ℕ → ℕ) :
    (ℕ → ℕ) × List (ℕ × List ℕ) :=
  ids.foldl
    (fun acc rid =>
      let fr := findH f acc.1 rid
      (fr.2, appendGroup acc.2 fr.1 rid))
    (p, [])

/-- Pass-start aggregate computation (lines 218-224): size-weighted mean color,
total size, size-weighted mean hue and saturation per group root. -/
def computeAggs (inp : MergeInput) (groups : List (ℕ × List ℕ)) :
    (ℕ → Option Color) × (ℕ → Option ℚ) × (ℕ → Option ℚ) × (ℕ → Option ℚ) :=
  groups.foldl
    (fun acc kl =>
      let t : ℚ := (kl.2.map inp.size).sum
      let cs : Color := kl.2.foldl (fun c m => cAdd c (cMul (inp.size m) (inp.color m))) (0, 0, 0)
      (Function.update acc.1 kl.1 (some (cDiv cs t)),
       Function.update acc.2.1 kl.1 (some t),
       Function.update acc.2.2.1 kl.1 (some ((kl.2.map fun m => inp.hue m * inp.size m).sum / t)),
       Function.update acc.2.2.2 kl.1 (some ((kl.2.map fun m => inp.sat m * inp.size m).sum / t))))
    (fun _ => none, fun _ => none, fun _ => none, fun _ => none)

/-- Group lookup with the `groups.get(ra, [ra])` default of lines 233-234. -/
def groupOf (groups : List (ℕ × List ℕ)) (r : ℕ) : List ℕ :=
  (groups.lookup r).getD [r]

/-- Membership test of `bool(group & protected_region_ids)`. -/
def protAny (prot : List ℕ) (l : List ℕ) : Bool :=
  l.any fun m => decide (m ∈ prot)

/-- One candidate-pair step of the merge loop body (lines 227-285).  The pair's
stored distance is only a sort key and is ignored here, as in the source. -/
def pairStep (f : ℕ) (inp : MergeInput) (groups : List (ℕ × List ℕ))
    (st : MSt) (pr : ℚ × ℕ × ℕ) : MSt :=
  let rid := pr.2.1
  let nid := pr.2.2
  let far := findH f st.parent rid
  let ra := far.1
  let fbr := findH f far.2 nid
  let rb := fbr.1
  let p2 := fbr.2
  if ra = rb then { st with parent := p2 }
  else
    let aProt := protAny inp.prot (groupOf groups ra)
    let bProt := protAny inp.prot (groupOf groups rb)
    if aProt ≠ bProt then { st with parent := p2 }
    else if aProt && bProt then
      let c1 := (st.gavg ra).getD (inp.color ra)
      let c2 := (st.gavg rb).getD (inp.color rb)
      if distSq c1 c2 < 225 then
        let sz1 := (st.gsz ra).getD 1
        let sz2 := (st.gsz rb).getD 1
        let u := unionH f p2 st.rnk ra rb
        let fnr := findH f u.1 ra
        { parent := fnr.2, rnk := u.2,
          gavg := Function.update st.gavg fnr.1
            (some (cDiv (cAdd (cMul sz1 c1) (cMul sz2 c2)) (sz1 + sz2))),
          gsz := Function.update st.gsz fnr.1 (some (sz1 + sz2)),
          ghue := st.ghue, gsat := st.gsat, merged := st.merged + 1 }
      else { st with parent := p2 }
    else
      let c1 := (st.gavg ra).getD (inp.color ra)
      let c2 := (st.gavg rb).getD (inp.color rb)
      let h1 := (st.ghue ra).getD 0
      let h2 := (st.ghue rb).getD 0
      let s1 := (st.gsat ra).getD 0
      let s2 := (st.gsat rb).getD 0
      if normalMergeCond c1 c2 h1 h2 s1 s2 then
        let sz1 := (st.gsz ra).getD 1
        let sz2 := (st.gsz rb).getD 1
        let u := unionH f p2 st.rnk ra rb
        let fnr := findH f u.1 ra
        { parent := fnr.2, rnk := u.2,
          gavg := Function.update st.gavg fnr.1
            (some (cDiv (cAdd (cMul sz1 c1) (cMul sz2 c2)) (sz1 + sz2))),
          gsz := Function.update st.gsz fnr.1 (some (sz1 + sz2)),
          ghue := Function.update st.ghue fnr.1 (some ((h1 * sz1 + h2 * sz2) / (sz1 + sz2))),
          gsat := Function.update st.gsat fnr.1 (some ((s1 * sz1 + s2 * sz2) / (sz1 + sz2))),
          merged := st.merged + 1 }
      else { st with parent := p2 }

/-- One full merge pass (lines 213-285): recompute groups and aggregates from
the current union-find state, reset the merge counter, then process every
candidate pair in order. -/
def runPass (f : ℕ) (inp : MergeInput) (pairs : List (ℚ × ℕ × ℕ)) (st : MSt) : MSt :=
  let cg := computeGroups f inp.ids st.parent
  let ag := computeAggs inp cg.2
  let st1 : MSt :=
    { parent := cg.1, rnk := st.rnk, gavg := ag.1, gsz := ag.2.1,
      ghue := ag.2.2.1, gsat := ag.2.2.2, merged := 0 }
  pairs.foldl (pairStep f inp cg.2) st1

/-- Up to `k` merge passes with early exit when a pass performs no merge
(lines 213, 287-289: `for pass_num in range(5)` with `if merged == 0: break`). -/
def runPasses (f : ℕ) (inp : MergeInput) (pairs : List (ℚ × ℕ × ℕ)) :
    ℕ → MSt → MSt
  | 0, st => st
  | k + 1, st =>
    let st1 := runPass f inp pairs st
    if st1.merged = 0 then st1 else runPasses f inp pairs k st1

/-- Initial merge state: `parent = {i: i}`, `rnk = {i: 0}` (line 192-193). -/
def initSt : MSt :=
  { parent := fun x => x, rnk := fun _ => 0, gavg := fun _ => none,
    gsz := fun _ => none, ghue := fun _ => none, gsat := fun _ => none,
    merged := 0 }

/-! ### Candidate-pair sorting (lines 208-211)

`sorted([(dist, r, n) ...])` sorts float-distance/id triples lexicographically;
since `sqrt` is strictly monotone, sorting by the squared distance gives the
same order, with the region-id pair as the tie-break key. -/

/-- Lexicographic order on (squared distance, region id, region id) triples,
the embedding of Python tuple comparison on `(dist, r, n)`. -/
def keyLE (a b : ℚ × ℕ × ℕ) : Prop :=
  a.1 < b.1 ∨ (a.1 = b.1 ∧ (a.2.1 < b.2.1 ∨ (a.2.1 = b.2.1 ∧ a.2.2 ≤ b.2.2)))

instance : DecidableRel keyLE := fun a b => by
  unfold keyLE; infer_instance

/-- The keyed candidate list before sorting: all adjacency pairs with `r < n`,
tagged with the squared color distance of the initial region colors. -/
def candKeys (color : ℕ → Color) (cand : List (ℕ × ℕ)) : List (ℚ × ℕ × ℕ) :=
  (cand.filter fun rn => rn.1 < rn.2).map fun rn =>
    (distSq (color rn.1) (color rn.2), rn.1, rn.2)

/-- The sorted candidate-pair list driving every merge pass. -/
def sortPairs (color : ℕ → Color) (cand : List (ℕ × ℕ)) : List (ℚ × ℕ × ℕ) :=
  (candKeys color cand).mergeSort fun a b => decide (keyLE a b)

/-- The full region-merge stage: sort the candidate pairs once, then run at
most five passes from the discrete initial union-find state. -/
def runMerge (inp : MergeInput) : MSt :=
  runPasses (inp.ids.length + 1) inp (sortPairs inp.color inp.cand) 5 initSt

/-! ### The protection invariant

Because merges are only ever performed between two groups of equal protection
status, every union-find tree stays homogeneous with respect to membership in
the protected set: each parent link connects two ids that are either both
protected or both unprotected. -/

/-- The homogeneity invariant on a parent map. -/
def PCompat (prot : List ℕ) (p : ℕ → ℕ) : Prop :=
  ∀ x, p x ∈ prot ↔ x ∈ prot

/-- Well-formedness of a pass-start groups list: every stored group is
non-empty and protection-homogeneous with its key. -/
def GProp (prot : List ℕ) (groups : List (ℕ × List ℕ)) : Prop :=
  ∀ kl ∈ groups, kl.2 ≠ [] ∧ ∀ m ∈ kl.2, (m ∈ prot ↔ kl.1 ∈ prot)

theorem pcompat_update {prot : List ℕ} {p : ℕ → ℕ} {x y : ℕ}
    (hp : PCompat prot p) (hxy : y ∈ prot ↔ x ∈ prot) :
    PCompat prot (Function.update p x y) := by
  intro z
  by_cases hz : z = x
  · subst hz
    rw [Function.update_same]
    exact hxy
  · rw [Function.update_noteq hz]
    exact hp z

theorem findH_pcompat {prot : List ℕ} :
    ∀ (f : ℕ) (p : ℕ → ℕ) (x : ℕ), PCompat prot p →
      PCompat prot (findH f p x).2 ∧ ((findH f p x).1 ∈ prot ↔ x ∈ prot)
  | 0, p, x, hp => by
    rw [findH]
    exact ⟨hp, Iff.rfl⟩
  | f + 1, p, x, hp => by
    by_cases hroot : p x = x
    · rw [findH, if_pos hroot]
      exact ⟨hp, Iff.rfl⟩
    · rw [findH, if_neg hroot]
      have hppx : p (p x) ∈ prot ↔ x ∈ prot := (hp (p x)).trans (hp x)
      have hp1 : PCompat prot (Function.update p x (p (p x))) :=
        pcompat_update hp hppx
      have hrec := findH_pcompat f (Function.update p x (p (p x))) (p (p x)) hp1
      exact ⟨hrec.1, hrec.2.trans hppx⟩

theorem unionH_pcompat {prot : List ℕ} {p rk : ℕ → ℕ} {a b : ℕ} (f : ℕ)
    (hp : PCompat prot p) (hab : a ∈ prot ↔ b ∈ prot) :
    PCompat prot (unionH f p rk a b).1 := by
  have h1 := findH_pcompat f p a hp
  have h2 := findH_pcompat f (findH f p a).2 b h1.1
  have hroots : (findH f (findH f p a).2 b).1 ∈ prot ↔ (findH f p a).1 ∈ prot :=
    (h2.2.trans hab.symm).trans h1.2.symm
  simp only [unionH]
  by_cases heq : (findH f p a).1 = (findH f (findH f p a).2 b).1
  · simp only [if_pos heq]
    exact h2.1
  · simp only [if_neg heq]
    by_cases hr : rk (findH f p a).1 < rk (findH f (findH f p a).2 b).1
    · simp only [if_pos hr]
      exact pcompat_update h2.1 hroots
    · simp only [if_neg hr]
      exact pcompat_update h2.1 hroots.symm

theorem lookup_pair_mem :
    ∀ (l : List (ℕ × List ℕ)) (k : ℕ) (v : List ℕ),
      l.lookup k = some v → (k, v) ∈ l
  | [], _, _, hl => by simp [List.lookup] at hl
  | (k1, v1) :: t, k, v, hl => by
    by_cases hk : k = k1
    · subst hk
      simp [List.lookup] at hl
      simp [hl]
    · have hbeq : (k == k1) = false := beq_false_of_ne hk
      simp only [List.lookup, hbeq] at hl
      exact List.mem_cons_of_mem _ (lookup_pair_mem t k v hl)

theorem appendGroup_gprop {prot : List ℕ} :
    ∀ (g : List (ℕ × List ℕ)) (r m : ℕ), GProp prot g → (m ∈ prot ↔ r ∈ prot) →
      GProp prot (appendGroup g r m)
  | [], r, m, _, hm => by
    intro kl hkl
    simp [appendGroup] at hkl
    subst hkl
    refine ⟨by simp, ?_⟩
    intro x hx
    simp at hx
    subst hx
    exact hm
  | (k1, l1) :: t, r, m, hg, hm => by
    by_cases hk : k1 = r
    · intro kl hkl
      rw [show appendGroup ((k1, l1) :: t) r m = (k1, l1 ++ [m]) :: t by
        simp [appendGroup, hk]] at hkl
      rcases List.mem_cons.mp hkl with rfl | hmem
      · refine ⟨by simp, ?_⟩
        intro x hx
        rcases List.mem_append.mp hx with h1 | h1
        · exact (hg (k1, l1) (List.mem_cons_self _ _)).2 x h1
        · simp at h1
          subst h1
          rw [hk]
          exact hm
      · exact hg kl (List.mem_cons_of_mem _ hmem)
    · intro kl hkl
      rw [show appendGroup ((k1, l1) :: t) r m = (k1, l1) :: appendGroup t r m by
        simp [appendGroup, hk]] at hkl
      rcases List.mem_cons.mp hkl with rfl | hmem
      · exact hg (k1, l1) (List.mem_cons_self _ _)
      · have ht : GProp prot t := fun kl2 hkl2 => hg kl2 (List.mem_cons_of_mem _ hkl2)
        exact appendGroup_gprop t r m ht hm kl hmem

theorem computeGroups_inv {prot : List ℕ} (f : ℕ) (ids : List ℕ) (p : ℕ → ℕ)
    (hp : PCompat prot p) :
    PCompat prot (computeGroups f ids p).1 ∧ GProp prot (computeGroups f ids p).2 := by
  suffices h : ∀ (l : List ℕ) (acc : (ℕ → ℕ) × List (ℕ × List ℕ)),
      PCompat prot acc.1 → GProp prot acc.2 →
      PCompat prot (l.foldl (fun acc rid =>
        let fr := findH f acc.1 rid
        (fr.2, appendGroup acc.2 fr.1 rid)) acc).1 ∧
      GProp prot (l.foldl (fun acc rid =>
        let fr := findH f acc.1 rid
        (fr.2, appendGroup acc.2 fr.1 rid)) acc).2 by
    exact h ids (p, []) hp (by intro kl hkl; simp at hkl)
  intro l
  induction l with
  | nil => intro acc h1 h2; exact ⟨h1, h2⟩
  | cons rid t ih =>
    intro acc h1 h2
    have hf := findH_pcompat f acc.1 rid h1
    exact ih _ hf.1 (appendGroup_gprop acc.2 (findH f acc.1 rid).1 rid h2 hf.2.symm)

theorem groupOf_inv {prot : List ℕ} {groups : List (ℕ × List ℕ)}
    (hg : GProp prot groups) (r : ℕ) :
    groupOf groups r ≠ [] ∧ ∀ m ∈ groupOf groups r, (m ∈ prot ↔ r ∈ prot) := by
  unfold groupOf
  cases hl : groups.lookup r with
  | none => exact ⟨by simp, by intro m hm; simp at hm; subst hm; exact Iff.rfl⟩
  | some v =>
    have := hg (r, v) (lookup_pair_mem groups r v hl)
    exact ⟨by simpa using this.1, by simpa using this.2⟩

theorem protAny_iff {prot : List ℕ} {l : List ℕ} {r : ℕ}
    (hne : l ≠ []) (hl : ∀ m ∈ l, (m ∈ prot ↔ r ∈ prot)) :
    protAny prot l = true ↔ r ∈ prot := by
  unfold protAny
  rw [List.any_eq_true]
  constructor
  · rintro ⟨m, hm, hdm⟩
    exact (hl m hm).mp (of_decide_eq_true hdm)
  · intro hr
    cases l with
    | nil => exact absurd rfl hne
    | cons a t =>
      exact ⟨a, List.mem_cons_self a t,
        decide_eq_true ((hl a (List.mem_cons_self a t)).mpr hr)⟩

theorem pairStep_pcompat {inp : MergeInput} {groups : List (ℕ × List ℕ)}
    {st : MSt} (f : ℕ) (pr : ℚ × ℕ × ℕ)
    (hp : PCompat inp.prot st.parent) (hg : GProp inp.prot groups) :
    PCompat inp.prot (pairStep f inp groups st pr).parent := by
  have h1 := findH_pcompat f st.parent pr.2.1 hp
  have h2 := findH_pcompat f (findH f st.parent pr.2.1).2 pr.2.2 h1.1
  have hga := groupOf_inv hg (findH f st.parent pr.2.1).1
  have hgb := groupOf_inv hg (findH f (findH f st.parent pr.2.1).2 pr.2.2).1
  have haiff := protAny_iff hga.1 hga.2
  have hbiff := protAny_iff hgb.1 hgb.2
  simp only [pairStep]
  split
  · exact h2.1
  · split
    · exact h2.1
    next hprot =>
      have hab : protAny inp.prot (groupOf groups (findH f st.parent pr.2.1).1) =
          protAny inp.prot (groupOf groups (findH f (findH f st.parent pr.2.1).2 pr.2.2).1) :=
        not_ne_iff.mp hprot
      have hroots : (findH f st.parent pr.2.1).1 ∈ inp.prot ↔
          (findH f (findH f st.parent pr.2.1).2 pr.2.2).1 ∈ inp.prot := by
        rw [← haiff, ← hbiff, hab]
      split
      · split
        · exact (findH_pcompat f _ _ (unionH_pcompat f h2.1 hroots)).1
        · exact h2.1
      · split
        · exact (findH_pcompat f _ _ (unionH_pcompat f h2.1 hroots)).1
        · exact h2.1

theorem runPass_pcompat {inp : MergeInput} {st : MSt}
    (f : ℕ) (pairs : List (ℚ × ℕ × ℕ)) (hp : PCompat inp.prot st.parent) :
    PCompat inp.prot (runPass f inp pairs st).parent := by
  have hcg := computeGroups_inv f inp.ids st.parent hp
  show PCompat inp.prot (runPass f inp pairs st).parent
  unfold runPass
  suffices h : ∀ (l : List (ℚ × ℕ × ℕ)) (st1 : MSt), PCompat inp.prot st1.parent →
      PCompat inp.prot (l.foldl (pairStep f inp (computeGroups f inp.ids st.parent).2) st1).parent by
    exact h pairs _ hcg.1
  intro l
  induction l with
  | nil => intro st1 hst1; exact hst1
  | cons a t ih =>
    intro st1 hst1
    exact ih _ (pairStep_pcompat f a hst1 hcg.2)

theorem runPasses_pcompat {inp : MergeInput} (f : ℕ) (pairs : List (ℚ × ℕ × ℕ)) :
    ∀ (k : ℕ) (st : MSt), PCompat inp.prot st.parent →
      PCompat inp.prot (runPasses f inp pairs k st).parent := by
  intro k
  induction k with
  | zero => intro st hp; exact hp
  | succ k ih =>
    intro st hp
    have h1 := runPass_pcompat f pairs hp
    simp only [runPasses]
    split
    · exact h1
    · exact ih _ h1

theorem runMerge_pcompat (inp : MergeInput) :
    PCompat inp.prot (runMerge inp).parent :=
  runPasses_pcompat _ _ 5 initSt (fun _ => Iff.rfl)

theorem pairStep_mixed {inp : MergeInput} {groups : List (ℕ × List ℕ)}
    {st : MSt} (f : ℕ) (d : ℚ) (r s : ℕ)
    (hp : PCompat inp.prot st.parent) (hg : GProp inp.prot groups)
    (hmix : (r ∈ inp.prot) ↔ ¬(s ∈ inp.prot)) :
    pairStep f inp groups st (d, r, s) =
      { st with parent := (findH f (findH f st.parent r).2 s).2 } := by
  have h1 := findH_pcompat f st.parent r hp
  have h2 := findH_pcompat f (findH f st.parent r).2 s h1.1
  have hga := groupOf_inv hg (findH f st.parent r).1
  have hgb := groupOf_inv hg (findH f (findH f st.parent r).2 s).1
  have haiff := protAny_iff hga.1 hga.2
  have hbiff := protAny_iff hgb.1 hgb.2
  have hne : (findH f st.parent r).1 ≠ (findH f (findH f st.parent r).2 s).1 := by
    intro he
    have hrs : (r ∈ inp.prot) ↔ (s ∈ inp.prot) := by
      rw [← h1.2, he, h2.2]
    tauto
  have hprotne : protAny inp.prot (groupOf groups (findH f st.parent r).1) ≠
      protAny inp.prot (groupOf groups (findH f (findH f st.parent r).2 s).1) := by
    intro he
    have hrs : (r ∈ inp.prot) ↔ (s ∈ inp.prot) := by
      rw [← h1.2, ← haiff, he, hbiff, h2.2]
    tauto
  simp only [pairStep]
  rw [if_neg hne, if_pos hprotne]

/-- C2.  Protection veto: the merge passes never connect a region inside a
protected group with a region outside one.  First conjunct: after the full
merge run every union-find class is protection-homogeneous, so a group
contains a protected id exactly when each of its members is protected.
Second conjunct: the final roots of a mixed pair stay distinct (for every
find fuel).  Third conjunct: processing a mixed candidate pair in any pass is
a pure `continue` — it performs no union, no aggregate update and no merge
count increment, only the path compression done by `find`. -/
theorem protectionVeto (inp : MergeInput) (r s : ℕ)
    (hmix : (r ∈ inp.prot) ↔ ¬(s ∈ inp.prot)) :
    (∀ (f x : ℕ), ((findH f (runMerge inp).parent x).1 ∈ inp.prot ↔ x ∈ inp.prot))
    ∧ (∀ (f g : ℕ),
        (findH f (runMerge inp).parent r).1 ≠ (findH g (runMerge inp).parent s).1)
    ∧ (∀ (f : ℕ) (groups : List (ℕ × List ℕ)) (st : MSt) (d : ℚ),
        PCompat inp.prot st.parent → GProp inp.prot groups →
        pairStep f inp groups st (d, r, s) =
          { st with parent := (findH f (findH f st.parent r).2 s).2 }) := by
  have hpc := runMerge_pcompat inp
  refine ⟨?_, ?_, ?_⟩
  · intro f x
    exact (findH_pcompat f (runMerge inp).parent x hpc).2
  · intro f g he
    have hr := (findH_pcompat f (runMerge inp).parent r hpc).2
    have hs := (findH_pcompat g (runMerge inp).parent s hpc).2
    have hrs : (r ∈ inp.prot) ↔ (s ∈ inp.prot) := by
      rw [← hr, he, hs]
    tauto
  · intro f groups st d hp hg
    exact pairStep_mixed f d r s hp hg hmix

/-- Concrete two-region input used by the C2 witness: region 1 is protected,
region 2 is not, and they are adjacent. -/
def inpC2 : MergeInput :=
  { ids := [1, 2], cand := [(1, 2)],
    color := fun i => if i = 1 then (10, 10, 10) else (200, 200, 200),
    size := fun _ => 100, hue := fun _ => 0, sat := fun _ => 0, prot := [1] }

/-- Witness for C2 at a concrete mixed pair. -/
theorem protectionVeto_witness :
    (((1 : ℕ) ∈ inpC2.prot) ↔ ¬((2 : ℕ) ∈ inpC2.prot)) ∧
    ((∀ (f x : ℕ), ((findH f (runMerge inpC2).parent x).1 ∈ inpC2.prot ↔ x ∈ inpC2.prot))
      ∧ (∀ (f g : ℕ),
          (findH f (runMerge inpC2).parent 1).1 ≠ (findH g (runMerge inpC2).parent 2).1)
      ∧ (∀ (f : ℕ) (groups : List (ℕ × List ℕ)) (st : MSt) (d : ℚ),
          PCompat inpC2.prot st.parent → GProp inpC2.prot groups →
          pairStep f inpC2 groups st (d, 1, 2) =
            { st with parent := (findH f (findH f st.parent 1).2 2).2 })) :=
  ⟨by decide, protectionVeto inpC2 1 2 (by decide)⟩

/-! ### Structure of the normal merge threshold (claim C3) -/

theorem baseThr_pos (bri : ℚ) : 0 < baseThr bri := by
  unfold baseThr
  by_cases hb1 : bri < 50
  · rw [if_pos hb1]; norm_num
  · rw [if_neg hb1]
    by_cases hb2 : bri < 80
    · rw [if_pos hb2]; norm_num
    · rw [if_neg hb2]
      by_cases hb3 : bri < 120
      · rw [if_pos hb3]; norm_num
      · rw [if_neg hb3]; norm_num

theorem hueSatFactor_pos (bri hd sd : ℚ) : 0 < hueSatFactor bri hd sd := by
  unfold hueSatFactor
  by_cases hb : bri < 80
  · rw [if_pos hb]
    by_cases h10 : 10 < hd <;> by_cases h5 : 5 < hd <;> by_cases h20 : 20 < sd <;>
      simp [h10, h5, h20] <;> norm_num
  · rw [if_neg hb]
    by_cases h12 : 12 < hd <;> by_cases h6 : 6 < hd <;> simp [h12, h6] <;> norm_num

theorem hueSatFactor_le_one (bri hd sd : ℚ) : hueSatFactor bri hd sd ≤ 1 := by
  unfold hueSatFactor
  by_cases hb : bri < 80
  · rw [if_pos hb]
    by_cases h10 : 10 < hd <;> by_cases h5 : 5 < hd <;> by_cases h20 : 20 < sd <;>
      simp [h10, h5, h20] <;> norm_num
  · rw [if_neg hb]
    by_cases h12 : 12 < hd <;> by_cases h6 : 6 < hd <;> simp [h12, h6] <;> norm_num

theorem hueSatFactor_lt_one_iff (bri hd sd : ℚ) :
    hueSatFactor bri hd sd < 1 ↔
      ((bri < 80 ∧ (5 < hd ∨ 20 < sd)) ∨ (80 ≤ bri ∧ 6 < hd)) := by
  unfold hueSatFactor
  by_cases hb : bri < 80
  · have hb' : ¬ (80 ≤ bri) := not_le.mpr hb
    rw [if_pos hb]
    by_cases h10 : 10 < hd
    · have h5 : 5 < hd := by linarith
      by_cases h20 : 20 < sd <;> simp [h10, h5, h20, hb, hb'] <;> norm_num
    · by_cases h5 : 5 < hd <;> by_cases h20 : 20 < sd <;>
        simp [h10, h5, h20, hb, hb'] <;> norm_num
  · have hb' : 80 ≤ bri := not_lt.mp hb
    rw [if_neg hb]
    by_cases h12 : 12 < hd
    · have h6 : 6 < hd := by linarith
      simp [h12, h6, hb, hb']
      norm_num
    · by_cases h6 : 6 < hd <;> simp [h12, h6, hb, hb'] <;> norm_num

theorem hueSatFactor_dark_le_bright (b1 b2 hd sd : ℚ) (hb1 : b1 < 80) (hb2 : 80 ≤ b2) :
    hueSatFactor b1 hd sd ≤ hueSatFactor b2 hd sd := by
  have hle := hueSatFactor_le_one b1 hd sd
  unfold hueSatFactor at hle ⊢
  rw [if_pos hb1] at hle ⊢
  rw [if_neg (not_lt.mpr hb2)]
  by_cases h12 : 12 < hd
  · have h10 : 10 < hd := by linarith
    rw [if_pos h12]
    by_cases h20 : 20 < sd <;> simp [h10, h20] <;> norm_num
  · rw [if_neg h12]
    by_cases h6 : 6 < hd
    · rw [if_pos h6]
      have h5 : 5 < hd := by linarith
      by_cases h10 : 10 < hd <;> by_cases h20 : 20 < sd <;>
        simp [h10, h5, h20] <;> norm_num
    · rw [if_neg h6]
      exact hle

theorem adjThr_pos (bri hd sd : ℚ) : 0 < adjThr bri hd sd :=
  mul_pos (baseThr_pos bri) (hueSatFactor_pos bri hd sd)

theorem adjThr_le_base (bri hd sd : ℚ) : adjThr bri hd sd ≤ baseThr bri := by
  have := mul_le_of_le_one_right (le_of_lt (baseThr_pos bri)) (hueSatFactor_le_one bri hd sd)
  simpa [adjThr] using this

theorem normalMergeCond_iff (c1 c2 : Color) (h1 h2 s1 s2 : ℚ) :
    normalMergeCond c1 c2 h1 h2 s1 s2 = true ↔
      distSq c1 c2 <
        adjThr ((meanChan c1 + meanChan c2) / 2) (hueDiff h1 h2) |s1 - s2| ^ 2 := by
  simp only [normalMergeCond, decide_eq_true_eq]

theorem pairStep_normal_merged {inp : MergeInput} {groups : List (ℕ × List ℕ)}
    {st : MSt} (f : ℕ) (d : ℚ) (r n : ℕ)
    (hp : PCompat inp.prot st.parent) (hg : GProp inp.prot groups)
    (hr : r ∉ inp.prot) (hn : n ∉ inp.prot)
    (hne : (findH f st.parent r).1 ≠ (findH f (findH f st.parent r).2 n).1) :
    ((pairStep f inp groups st (d, r, n)).merged = st.merged + 1 ↔
      normalMergeCond
        ((st.gavg (findH f st.parent r).1).getD (inp.color (findH f st.parent r).1))
        ((st.gavg (findH f (findH f st.parent r).2 n).1).getD
          (inp.color (findH f (findH f st.parent r).2 n).1))
        ((st.ghue (findH f st.parent r).1).getD 0)
        ((st.ghue (findH f (findH f st.parent r).2 n).1).getD 0)
        ((st.gsat (findH f st.parent r).1).getD 0)
        ((st.gsat (findH f (findH f st.parent r).2 n).1).getD 0) = true) := by
  have h1 := findH_pcompat f st.parent r hp
  have h2 := findH_pcompat f (findH f st.parent r).2 n h1.1
  have hga := groupOf_inv hg (findH f st.parent r).1
  have hgb := groupOf_inv hg (findH f (findH f st.parent r).2 n).1
  have haiff := protAny_iff hga.1 hga.2
  have hbiff := protAny_iff hgb.1 hgb.2
  have ha : protAny inp.prot (groupOf groups (findH f st.parent r).1) = false :=
    Bool.eq_false_iff.mpr fun hh => hr (h1.2.mp (haiff.mp hh))
  have hb : protAny inp.prot (groupOf groups (findH f (findH f st.parent r).2 n).1) = false :=
    Bool.eq_false_iff.mpr fun hh => hn (h2.2.mp (hbiff.mp hh))
  simp only [pairStep]
  rw [if_neg hne]
  rw [if_neg (show ¬ (protAny inp.prot (groupOf groups (findH f st.parent r).1) ≠
      protAny inp.prot (groupOf groups (findH f (findH f st.parent r).2 n).1)) by
    rw [ha, hb]; exact fun hh => hh rfl)]
  rw [if_neg (show ¬ ((protAny inp.prot (groupOf groups (findH f st.parent r).1) &&
      protAny inp.prot (groupOf groups (findH f (findH f st.parent r).2 n).1)) = true) by
    rw [ha, hb]; simp)]
  by_cases hcond : normalMergeCond
      ((st.gavg (findH f st.parent r).1).getD (inp.color (findH f st.parent r).1))
      ((st.gavg (findH f (findH f st.parent r).2 n).1).getD
        (inp.color (findH f (findH f st.parent r).2 n).1))
      ((st.ghue (findH f st.parent r).1).getD 0)
      ((st.ghue (findH f (findH f st.parent r).2 n).1).getD 0)
      ((st.gsat (findH f st.parent r).1).getD 0)
      ((st.gsat (findH f (findH f st.parent r).2 n).1).getD 0) = true
  · rw [if_pos hcond]
    simp [hcond]
  · rw [if_neg hcond]
    simp [hcond]

/-- C3.  Normal merge rule for unprotected pairs.  Conjunct 1: the decision is
exactly `rgb distance < adjusted threshold` (strict, in squared form).
Conjunct 2: at exact equality of distance and threshold no merge occurs.
Conjunct 3: the adjusted threshold is positive and never exceeds the base
threshold.  Conjunct 4: the four brightness bands select base thresholds
28 / 35 / 40 / 44.  Conjunct 5: the threshold is strictly scaled down exactly
when the hue or saturation cutoffs are exceeded (cutoffs 5 and 20 below
brightness 80, hue cutoff 6 at or above 80).  Conjunct 6: the dark-side
scaling is always at least as aggressive as the bright-side scaling.
Conjunct 7: in a merge pass, a candidate pair of unprotected regions with
distinct roots increments the merge counter iff the decision holds on the
current group aggregates. -/
theorem normalMergeRule (c1 c2 : Color) (h1 h2 s1 s2 : ℚ) :
    (normalMergeCond c1 c2 h1 h2 s1 s2 = true ↔
      distSq c1 c2 <
        adjThr ((meanChan c1 + meanChan c2) / 2) (hueDiff h1 h2) |s1 - s2| ^ 2)
    ∧ (distSq c1 c2 =
        adjThr ((meanChan c1 + meanChan c2) / 2) (hueDiff h1 h2) |s1 - s2| ^ 2 →
        normalMergeCond c1 c2 h1 h2 s1 s2 = false)
    ∧ (0 < adjThr ((meanChan c1 + meanChan c2) / 2) (hueDiff h1 h2) |s1 - s2| ∧
        adjThr ((meanChan c1 + meanChan c2) / 2) (hueDiff h1 h2) |s1 - s2| ≤
          baseThr ((meanChan c1 + meanChan c2) / 2))
    ∧ (((meanChan c1 + meanChan c2) / 2 < 50 →
          baseThr ((meanChan c1 + meanChan c2) / 2) = 28) ∧
       (50 ≤ (meanChan c1 + meanChan c2) / 2 → (meanChan c1 + meanChan c2) / 2 < 80 →
          baseThr ((meanChan c1 + meanChan c2) / 2) = 35) ∧
       (80 ≤ (meanChan c1 + meanChan c2) / 2 → (meanChan c1 + meanChan c2) / 2 < 120 →
          baseThr ((meanChan c1 + meanChan c2) / 2) = 40) ∧
       (120 ≤ (meanChan c1 + meanChan c2) / 2 →
          baseThr ((meanChan c1 + meanChan c2) / 2) = 44))
    ∧ (hueSatFactor ((meanChan c1 + meanChan c2) / 2) (hueDiff h1 h2) |s1 - s2| < 1 ↔
        (((meanChan c1 + meanChan c2) / 2 < 80 ∧ (5 < hueDiff h1 h2 ∨ 20 < |s1 - s2|)) ∨
         (80 ≤ (meanChan c1 + meanChan c2) / 2 ∧ 6 < hueDiff h1 h2)))
    ∧ (∀ b1 b2 : ℚ, b1 < 80 → 80 ≤ b2 →
        hueSatFactor b1 (hueDiff h1 h2) |s1 - s2| ≤ hueSatFactor b2 (hueDiff h1 h2) |s1 - s2|)
    ∧ (∀ (f : ℕ) (inp : MergeInput) (groups : List (ℕ × List ℕ)) (st : MSt) (d : ℚ) (r n : ℕ),
        PCompat inp.prot st.parent → GProp inp.prot groups →
        r ∉ inp.prot → n ∉ inp.prot →
        (findH f st.parent r).1 ≠ (findH f (findH f st.parent r).2 n).1 →
        ((pairStep f inp groups st (d, r, n)).merged = st.merged + 1 ↔
          normalMergeCond
            ((st.gavg (findH f st.parent r).1).getD (inp.color (findH f st.parent r).1))
            ((st.gavg (findH f (findH f st.parent r).2 n).1).getD
              (inp.color (findH f (findH f st.parent r).2 n).1))
            ((st.ghue (findH f st.parent r).1).getD 0)
            ((st.ghue (findH f (findH f st.parent r).2 n).1).getD 0)
            ((st.gsat (findH f st.parent r).1).getD 0)
            ((st.gsat (findH f (findH f st.parent r).2 n).1).getD 0) = true)) := by
  refine ⟨normalMergeCond_iff c1 c2 h1 h2 s1 s2, ?_, ?_, ?_, ?_, ?_, ?_⟩
  · intro heq
    rw [Bool.eq_false_iff]
    intro hh
    have := (normalMergeCond_iff c1 c2 h1 h2 s1 s2).mp hh
    rw [heq] at this
    exact lt_irrefl _ this
  · exact ⟨adjThr_pos _ _ _, adjThr_le_base _ _ _⟩
  · refine ⟨?_, ?_, ?_, ?_⟩
    · intro hbri
      unfold baseThr
      rw [if_pos hbri]
    · intro hb1 hb2
      unfold baseThr
      rw [if_neg (not_lt.mpr hb1), if_pos hb2]
    · intro hb1 hb2
      unfold baseThr
      rw [if_neg (not_lt.mpr (by linarith)), if_neg (not_lt.mpr hb1), if_pos hb2]
    · intro hb1
      unfold baseThr
      rw [if_neg (not_lt.mpr (by linarith)), if_neg (not_lt.mpr (by linarith)),
        if_neg (not_lt.mpr hb1)]
  · exact hueSatFactor_lt_one_iff _ _ _
  · intro b1 b2 hb1 hb2
    exact hueSatFactor_dark_le_bright b1 b2 _ _ hb1 hb2
  · intro f inp groups st d r n hp hg hr hn hne
    exact pairStep_normal_merged f d r n hp hg hr hn hne

/-- Witness for C3: the theorem applied in each brightness band, at a pair
sitting exactly on the threshold (no merge), and at a pair strictly below the
lowest-band threshold (merge). -/
theorem normalMergeRule_witness :
    baseThr ((meanChan (40, 40, 40) + meanChan (40, 40, 40)) / 2) = 28 ∧
    baseThr ((meanChan (60, 60, 60) + meanChan (60, 60, 60)) / 2) = 35 ∧
    baseThr ((meanChan (100, 100, 100) + meanChan (100, 100, 100)) / 2) = 40 ∧
    baseThr ((meanChan (200, 200, 200) + meanChan (200, 200, 200)) / 2) = 44 ∧
    normalMergeCond (0, 0, 0) (28, 0, 0) 0 0 0 0 = false ∧
    (normalMergeCond (0, 0, 0) (20, 0, 0) 0 0 0 0 = true ↔
      distSq (0, 0, 0) (20, 0, 0) <
        adjThr ((meanChan (0, 0, 0) + meanChan (20, 0, 0)) / 2) (hueDiff 0 0) |0 - 0| ^ 2) := by
  refine ⟨?_, ?_, ?_, ?_, ?_, ?_⟩
  · exact (normalMergeRule (40, 40, 40) (40, 40, 40) 0 0 0 0).2.2.2.1.1
      (by norm_num [meanChan])
  · exact (normalMergeRule (60, 60, 60) (60, 60, 60) 0 0 0 0).2.2.2.1.2.1
      (by norm_num [meanChan]) (by norm_num [meanChan])
  · exact (normalMergeRule (100, 100, 100) (100, 100, 100) 0 0 0 0).2.2.2.1.2.2.1
      (by norm_num [meanChan]) (by norm_num [meanChan])
  · exact (normalMergeRule (200, 200, 200) (200, 200, 200) 0 0 0 0).2.2.2.1.2.2.2
      (by norm_num [meanChan])
  · exact (normalMergeRule (0, 0, 0) (28, 0, 0) 0 0 0 0).2.1
      (by norm_num [distSq, adjThr, baseThr, hueSatFactor, meanChan, hueDiff])
  · exact (normalMergeRule (0, 0, 0) (20, 0, 0) 0 0 0 0).1

/-! ### Determinism of the candidate-pair order (claim C7) -/

theorem keyLE_total (a b : ℚ × ℕ × ℕ) : keyLE a b ∨ keyLE b a := by
  unfold keyLE
  rcases lt_trichotomy a.1 b.1 with h | h | h
  · exact Or.inl (Or.inl h)
  · rcases lt_trichotomy a.2.1 b.2.1 with h2 | h2 | h2
    · exact Or.inl (Or.inr ⟨h, Or.inl h2⟩)
    · rcases le_total a.2.2 b.2.2 with h3 | h3
      · exact Or.inl (Or.inr ⟨h, Or.inr ⟨h2, h3⟩⟩)
      · exact Or.inr (Or.inr ⟨h.symm, Or.inr ⟨h2.symm, h3⟩⟩)
    · exact Or.inr (Or.inr ⟨h.symm, Or.inl h2⟩)
  · exact Or.inr (Or.inl h)

theorem keyLE_trans (a b c : ℚ × ℕ × ℕ) : keyLE a b → keyLE b c → keyLE a c := by
  unfold keyLE
  rintro (h1 | ⟨h1e, h1r⟩) (h2 | ⟨h2e, h2r⟩)
  · exact Or.inl (h1.trans h2)
  · exact Or.inl (lt_of_lt_of_le h1 (le_of_eq h2e))
  · exact Or.inl (lt_of_le_of_lt (le_of_eq h1e) h2)
  · refine Or.inr ⟨h1e.trans h2e, ?_⟩
    rcases h1r with h1r | ⟨h1re, h1rr⟩ <;> rcases h2r with h2r | ⟨h2re, h2rr⟩
    · exact Or.inl (h1r.trans h2r)
    · exact Or.inl (lt_of_lt_of_le h1r (le_of_eq h2re))
    · exact Or.inl (lt_of_le_of_lt (le_of_eq h1re) h2r)
    · exact Or.inr ⟨h1re.trans h2re, h1rr.trans h2rr⟩

theorem keyLE_antisymm (a b : ℚ × ℕ × ℕ) : keyLE a b → keyLE b a → a = b := by
  unfold keyLE
  rintro (h1 | ⟨h1e, h1r⟩) (h2 | ⟨h2e, h2r⟩)
  · exact absurd h2 (lt_asymm h1)
  · exact absurd h1 (by rw [h2e]; exact lt_irrefl _)
  · exact absurd h2 (by rw [h1e]; exact lt_irrefl _)
  · rcases h1r with h1r | ⟨h1re, h1rr⟩ <;> rcases h2r with h2r | ⟨h2re, h2rr⟩
    · omega
    · omega
    · omega
    · have h22 : a.2.2 = b.2.2 := le_antisymm h1rr h2rr
      exact Prod.ext_iff.mpr ⟨h1e, Prod.ext_iff.mpr ⟨h1re, h22⟩⟩

instance : IsTrans (ℚ × ℕ × ℕ) keyLE := ⟨keyLE_trans⟩

instance : IsAntisymm (ℚ × ℕ × ℕ) keyLE := ⟨keyLE_antisymm⟩

instance : IsTotal (ℚ × ℕ × ℕ) keyLE := ⟨keyLE_total⟩

theorem sortPairs_sorted (color : ℕ → Color) (cand : List (ℕ × ℕ)) :
    List.Sorted keyLE (sortPairs color cand) := by
  have hs := @List.sorted_mergeSort (ℚ × ℕ × ℕ) (fun a b => decide (keyLE a b))
    (fun a b c hab hbc =>
      decide_eq_true (keyLE_trans a b c (of_decide_eq_true hab) (of_decide_eq_true hbc)))
    (fun a b => by
      rcases keyLE_total a b with h | h
      · simp [decide_eq_true h]
      · simp [decide_eq_true h])
    (candKeys color cand)
  exact List.Pairwise.imp (fun hab => of_decide_eq_true hab) hs

theorem sortPairs_perm (color : ℕ → Color) (cand : List (ℕ × ℕ)) :
    (sortPairs color cand).Perm (candKeys color cand) :=
  List.mergeSort_perm _ _

/-- C7.  Determinism of the merge order and of the merge run.  Conjunct 1/2:
the pair list actually processed is a `keyLE`-sorted permutation of the keyed
candidate pairs.  Conjunct 3: any two sorted permutations of the candidates
coincide — the processing order, including ties in color distance, is uniquely
determined by the (distance, region-id pair) sort key.  Conjunct 4: hence two
merge runs over any two sorted candidate orders produce identical final
states.  Conjunct 5: pairs of equal distance appear ordered by their region-id
pair. -/
theorem mergeOrderDeterminism (color : ℕ → Color) (cand : List (ℕ × ℕ)) :
    List.Sorted keyLE (sortPairs color cand)
    ∧ (sortPairs color cand).Perm (candKeys color cand)
    ∧ (∀ l1 l2 : List (ℚ × ℕ × ℕ),
        l1.Perm (candKeys color cand) → l2.Perm (candKeys color cand) →
        List.Sorted keyLE l1 → List.Sorted keyLE l2 → l1 = l2)
    ∧ (∀ (ids : List ℕ) (size hue sat : ℕ → ℚ) (prot : List ℕ) (f k : ℕ) (st : MSt)
         (l1 l2 : List (ℚ × ℕ × ℕ)),
        l1.Perm (candKeys color cand) → l2.Perm (candKeys color cand) →
        List.Sorted keyLE l1 → List.Sorted keyLE l2 →
        runPasses f ⟨ids, cand, color, size, hue, sat, prot⟩ l1 k st =
          runPasses f ⟨ids, cand, color, size, hue, sat, prot⟩ l2 k st)
    ∧ List.Pairwise
        (fun a b : ℚ × ℕ × ℕ => a.1 = b.1 →
          (a.2.1 < b.2.1 ∨ (a.2.1 = b.2.1 ∧ a.2.2 ≤ b.2.2))) (sortPairs color cand) := by
  have hsort := sortPairs_sorted color cand
  have huniq : ∀ l1 l2 : List (ℚ × ℕ × ℕ),
      l1.Perm (candKeys color cand) → l2.Perm (candKeys color cand) →
      List.Sorted keyLE l1 → List.Sorted keyLE l2 → l1 = l2 :=
    fun _ _ hp1 hp2 hs1 hs2 => List.eq_of_perm_of_sorted (hp1.trans hp2.symm) hs1 hs2
  refine ⟨hsort, sortPairs_perm color cand, huniq, ?_, ?_⟩
  · intro ids size hue sat prot f k st l1 l2 hp1 hp2 hs1 hs2
    rw [huniq l1 l2 hp1 hp2 hs1 hs2]
  · refine hsort.imp ?_
    intro a b hab heq
    rcases hab with hlt | ⟨_, hr⟩
    · exact absurd hlt (by rw [heq]; exact lt_irrefl _)
    · exact hr

/-- Concrete colors for the C7 witness: regions 2 and 3 are at equal distance
25 from region 1 (a distance tie broken by the id pair). -/
def colorC7 : ℕ → Color :=
  fun i => if i = 1 then (0, 0, 0) else if i = 2 then (3, 4, 0) else (0, 0, 5)

/-- Concrete candidate list for the C7 witness. -/
def candC7 : List (ℕ × ℕ) := [(1, 3), (1, 2)]

/-- Witness for C7: the uniqueness conjunct applied to the concrete sorted
candidate list, with its permutation and sortedness hypotheses discharged by
the theorem itself. -/
theorem mergeOrderDeterminism_witness :
    ((sortPairs colorC7 candC7).Perm (candKeys colorC7 candC7) ∧
      List.Sorted keyLE (sortPairs colorC7 candC7)) ∧
    sortPairs colorC7 candC7 = sortPairs colorC7 candC7 := by
  have h := mergeOrderDeterminism colorC7 candC7
  exact ⟨⟨h.2.1, h.1⟩, h.2.2.1 _ _ h.2.1 h.2.1 h.1 h.1⟩

/-! ### Label maps, renumbering and orphan fill (lines 504-525, gap fill 319-326)

A label map is a total function on the pixel grid, the embedding of the
fixed-shape `uint16` array `km`.  Step 16 sorts the surviving nonzero ids,
remaps them to consecutive ids starting at 1, rebuilds the map, and fills any
remaining zero pixel from its nearest assigned pixel (the embedding of the
`distance_transform_edt` nearest-index fill; the tie-break among equally near
pixels is implementation-defined in SciPy and is fixed here to scan order). -/

/-- A per-pixel label field of fixed image shape. -/
abbrev LabelMap (h w : ℕ) := Fin h → Fin w → ℕ

/-- Number of pixels carrying the value `v`: `(km == v).sum()`. -/
def countPix {h w : ℕ} (km : LabelMap h w) (v : ℕ) : ℕ :=
  (Finset.univ.filter fun p : Fin h × Fin w => km p.1 p.2 = v).card

/-- The set of nonzero labels present in the map: `set(km.flatten()) - {0}`. -/
def labelSet {h w : ℕ} (km : LabelMap h w) : Finset ℕ :=
  (Finset.image (fun p : Fin h × Fin w => km p.1 p.2) Finset.univ).erase 0

/-- The surviving ids in ascending order: `sorted(set(km.flatten()) - {0})`. -/
def sortedIds {h w : ℕ} (km : LabelMap h w) : List ℕ :=
  (labelSet km).sort (· ≤ ·)

/-- Specification helper: consecutive numbering of a list starting at `k`. -/
def numberFrom : ℕ → List ℕ → List (ℕ × ℕ)
  | _, [] => []
  | k, v :: vs => (v, k) :: numberFrom (k + 1) vs

/-- The renumbering fold of lines 507-512: walk the sorted ids, check the
(always true) non-empty-mask condition, and assign the next consecutive id. -/
def remapFold {h w : ℕ} (km : LabelMap h w) : List (ℕ × ℕ) × ℕ :=
  (sortedIds km).foldl
    (fun acc old =>
      if 0 < countPix km old then (acc.1 ++ [(old, acc.2 + 1)], acc.2 + 1) else acc)
    ([], 0)

/-- The id remap applied to one label value; unmapped values (only 0) give 0,
the background of the freshly zeroed `km_final`. -/
def idRemap {h w : ℕ} (km : LabelMap h w) (v : ℕ) : ℕ :=
  ((remapFold km).1.lookup v).getD 0

/-- `km_final` before the orphan fill (lines 514-516). -/
def kmRen {h w : ℕ} (km : LabelMap h w) : LabelMap h w :=
  fun r c => idRemap km (km r c)

/-- All grid pixels in scan order. -/
def pixList (h w : ℕ) : List (Fin h × Fin w) :=
  (List.finRange h).flatMap fun r => (List.finRange w).map fun c => (r, c)

/-- All pixels currently holding a nonzero label, in scan order. -/
def assignedPixels {h w : ℕ} (km : LabelMap h w) : List (Fin h × Fin w) :=
  (pixList h w).filter fun p => km p.1 p.2 ≠ 0

/-- Squared Euclidean pixel distance used by the distance transform. -/
def pixDistSq {h w : ℕ} (p q : Fin h × Fin w) : ℤ :=
  ((p.1 : ℤ) - (q.1 : ℤ)) ^ 2 + ((p.2 : ℤ) - (q.2 : ℤ)) ^ 2

/-- The assigned pixel nearest to `p` (first in scan order among minima);
`p` itself when the map is entirely unassigned. -/
def nearestAssigned {h w : ℕ} (km : LabelMap h w) (p : Fin h × Fin w) :
    Fin h × Fin w :=
  match assignedPixels km with
  | [] => p
  | a :: rest =>
    rest.foldl (fun best q => if pixDistSq q p < pixDistSq best p then q else best) a

/-- Orphan fill (lines 519-522, same technique as the step-8 gap fill of lines
320-324): every zero pixel receives the label of its nearest assigned pixel. -/
def fillHoles {h w : ℕ} (km : LabelMap h w) : LabelMap h w := fun r c =>
  if km r c = 0 then
    km (nearestAssigned km (r, c)).1 (nearestAssigned km (r, c)).2
  else km r c

/-- Step 16 as a whole: renumber consecutively, then fill orphans. -/
def renumberStage {h w : ℕ} (km : LabelMap h w) : LabelMap h w :=
  fillHoles (kmRen km)

/-- The exported kingdom count `num_k = int(km_final.max())` (line 524). -/
def numKingdoms {h w : ℕ} (km : LabelMap h w) : ℕ :=
  Finset.univ.sup fun p : Fin h × Fin w => km p.1 p.2

/-! ### Properties of the renumbering stage -/

theorem mem_sortedIds {h w : ℕ} {km : LabelMap h w} {v : ℕ} :
    v ∈ sortedIds km ↔ (v ≠ 0 ∧ ∃ p : Fin h × Fin w, km p.1 p.2 = v) := by
  unfold sortedIds labelSet
  rw [Finset.mem_sort, Finset.mem_erase]
  simp only [Finset.mem_image, Finset.mem_univ, true_and]

theorem sortedIds_nodup {h w : ℕ} (km : LabelMap h w) : (sortedIds km).Nodup :=
  Finset.sort_nodup _ _

theorem sortedIds_sorted {h w : ℕ} (km : LabelMap h w) :
    List.Sorted (· ≤ ·) (sortedIds km) :=
  Finset.sort_sorted _ _

theorem countPix_pos_iff {h w : ℕ} {km : LabelMap h w} {v : ℕ} :
    0 < countPix km v ↔ ∃ p : Fin h × Fin w, km p.1 p.2 = v := by
  unfold countPix
  rw [Finset.card_pos]
  constructor
  · rintro ⟨p, hp⟩
    rw [Finset.mem_filter] at hp
    exact ⟨p, hp.2⟩
  · rintro ⟨p, hp⟩
    exact ⟨p, Finset.mem_filter.mpr ⟨Finset.mem_univ p, hp⟩⟩

theorem remapFold_go {h w : ℕ} (km : LabelMap h w) :
    ∀ (l : List ℕ) (acc : List (ℕ × ℕ)) (k : ℕ),
      (∀ v ∈ l, 0 < countPix km v) →
      l.foldl
        (fun acc old =>
          if 0 < countPix km old then (acc.1 ++ [(old, acc.2 + 1)], acc.2 + 1) else acc)
        (acc, k) = (acc ++ numberFrom (k + 1) l, k + l.length)
  | [], acc, k, _ => by simp [numberFrom]
  | v :: vs, acc, k, hall => by
    have hv := hall v (List.mem_cons_self _ _)
    rw [List.foldl_cons]
    simp only [if_pos hv]
    rw [remapFold_go km vs (acc ++ [(v, k + 1)]) (k + 1)
      (fun x hx => hall x (List.mem_cons_of_mem _ hx))]
    rw [Prod.ext_iff]
    refine ⟨?_, ?_⟩
    · simp [numberFrom, List.append_assoc]
    · simp only [List.length_cons]
      omega

theorem sortedIds_count_pos {h w : ℕ} (km : LabelMap h w) :
    ∀ v ∈ sortedIds km, 0 < countPix km v :=
  fun _ hv => countPix_pos_iff.mpr (mem_sortedIds.mp hv).2

theorem remapFold_eq {h w : ℕ} (km : LabelMap h w) :
    remapFold km = (numberFrom 1 (sortedIds km), (sortedIds km).length) := by
  unfold remapFold
  rw [remapFold_go km (sortedIds km) [] 0 (sortedIds_count_pos km)]
  simp

theorem lookup_numberFrom_get :
    ∀ (l : List ℕ) (k j : ℕ) (hj : j < l.length), l.Nodup →
      (numberFrom k l).lookup (l.get ⟨j, hj⟩) = some (k + j)
  | [], _, j, hj, _ => absurd hj (by simp)
  | v :: vs, k, 0, _, _ => by simp [numberFrom, List.lookup]
  | v :: vs, k, j + 1, hj, hnd => by
    have hj' : j < vs.length := by simpa using hj
    have hmem : vs.get ⟨j, hj'⟩ ∈ vs := List.get_mem _ _ _
    have hne : vs.get ⟨j, hj'⟩ ≠ v := by
      intro he
      exact (List.nodup_cons.mp hnd).1 (he ▸ hmem)
    have hget : (v :: vs).get ⟨j + 1, hj⟩ = vs.get ⟨j, hj'⟩ := rfl
    rw [hget]
    show (numberFrom k (v :: vs)).lookup (vs.get ⟨j, hj'⟩) = some (k + (j + 1))
    rw [numberFrom]
    simp only [List.lookup, beq_false_of_ne hne]
    rw [lookup_numberFrom_get vs (k + 1) j hj' (List.nodup_cons.mp hnd).2]
    congr 1
    omega

theorem lookup_numberFrom_none :
    ∀ (l : List ℕ) (k v : ℕ), v ∉ l → (numberFrom k l).lookup v = none
  | [], _, _, _ => rfl
  | x :: xs, k, v, hv => by
    have hne : v ≠ x := fun he => hv (he ▸ List.mem_cons_self _ _)
    rw [numberFrom]
    simp only [List.lookup, beq_false_of_ne hne]
    exact lookup_numberFrom_none xs (k + 1) v (fun hm => hv (List.mem_cons_of_mem _ hm))

theorem idRemap_mem_bounds {h w : ℕ} {km : LabelMap h w} {v : ℕ}
    (hv : v ∈ sortedIds km) :
    1 ≤ idRemap km v ∧ idRemap km v ≤ (sortedIds km).length := by
  obtain ⟨j, hjget⟩ := List.mem_iff_get.mp hv
  unfold idRemap
  rw [remapFold_eq, ← hjget]
  rw [show j = (⟨j.1, j.2⟩ : Fin _) from rfl]
  rw [lookup_numberFrom_get _ 1 j.1 j.2 (sortedIds_nodup km)]
  have := j.2
  simp only [Option.getD_some]
  omega

theorem idRemap_not_mem {h w : ℕ} {km : LabelMap h w} {v : ℕ}
    (hv : v ∉ sortedIds km) : idRemap km v = 0 := by
  unfold idRemap
  rw [remapFold_eq, lookup_numberFrom_none _ 1 v hv]
  rfl

theorem idRemap_surj {h w : ℕ} (km : LabelMap h w) (m : ℕ)
    (h1 : 1 ≤ m) (h2 : m ≤ (sortedIds km).length) :
    ∃ v ∈ sortedIds km, idRemap km v = m := by
  have hj : m - 1 < (sortedIds km).length := by omega
  refine ⟨(sortedIds km).get ⟨m - 1, hj⟩, List.get_mem _ _ _, ?_⟩
  unfold idRemap
  rw [remapFold_eq, lookup_numberFrom_get _ 1 (m - 1) hj (sortedIds_nodup km)]
  simp only [Option.getD_some]
  omega

theorem kmRen_ne_zero_iff {h w : ℕ} {km : LabelMap h w} (r : Fin h) (c : Fin w) :
    kmRen km r c ≠ 0 ↔ km r c ≠ 0 := by
  unfold kmRen
  constructor
  · intro hne h0
    apply hne
    rw [h0]
    exact idRemap_not_mem (fun hm => (mem_sortedIds.mp hm).1 rfl)
  · intro hne
    have hv : km r c ∈ sortedIds km := mem_sortedIds.mpr ⟨hne, (r, c), rfl⟩
    have := idRemap_mem_bounds hv
    omega

theorem mem_pixList {h w : ℕ} (p : Fin h × Fin w) : p ∈ pixList h w := by
  unfold pixList
  rw [List.mem_flatMap]
  refine ⟨p.1, List.mem_finRange _, ?_⟩
  rw [List.mem_map]
  exact ⟨p.2, List.mem_finRange _, rfl⟩

theorem mem_assignedPixels {h w : ℕ} {km : LabelMap h w} {p : Fin h × Fin w} :
    p ∈ assignedPixels km ↔ km p.1 p.2 ≠ 0 := by
  unfold assignedPixels
  rw [List.mem_filter]
  simp [mem_pixList p]

theorem foldl_choice_mem {α : Type} (f : α → α → α)
    (hf : ∀ a b, f a b = a ∨ f a b = b) :
    ∀ (l : List α) (a : α), l.foldl f a ∈ a :: l
  | [], a => by simp
  | b :: t, a => by
    have hrec := foldl_choice_mem f hf t (f a b)
    rw [List.foldl_cons]
    rcases List.mem_cons.mp hrec with he | hm
    · rcases hf a b with h1 | h1
      · rw [he, h1]
        exact List.mem_cons_self _ _
      · rw [he, h1]
        exact List.mem_cons_of_mem _ (List.mem_cons_self _ _)
    · exact List.mem_cons_of_mem _ (List.mem_cons_of_mem _ hm)

theorem nearestAssigned_mem {h w : ℕ} {km : LabelMap h w} (p : Fin h × Fin w)
    (hne : assignedPixels km ≠ []) :
    nearestAssigned km p ∈ assignedPixels km := by
  unfold nearestAssigned
  cases hA : assignedPixels km with
  | nil => exact absurd hA hne
  | cons a rest =>
    have hsel : ∀ x y : Fin h × Fin w,
        (if pixDistSq y p < pixDistSq x p then y else x) = x ∨
        (if pixDistSq y p < pixDistSq x p then y else x) = y := by
      intro x y
      by_cases hc : pixDistSq y p < pixDistSq x p
      · right; rw [if_pos hc]
      · left; rw [if_neg hc]
    have := foldl_choice_mem
      (fun best q => if pixDistSq q p < pixDistSq best p then q else best) hsel rest a
    exact this

theorem fillHoles_ne_zero {h w : ℕ} {km : LabelMap h w}
    (hz : ∃ p : Fin h × Fin w, km p.1 p.2 ≠ 0) (r : Fin h) (c : Fin w) :
    fillHoles km r c ≠ 0 := by
  unfold fillHoles
  by_cases h0 : km r c = 0
  · rw [if_pos h0]
    obtain ⟨p0, hp0⟩ := hz
    have hnil : assignedPixels km ≠ [] :=
      List.ne_nil_of_mem (mem_assignedPixels.mpr hp0)
    exact mem_assignedPixels.mp (nearestAssigned_mem (r, c) hnil)
  · rw [if_neg h0]
    exact h0

theorem fillHoles_of_ne_zero {h w : ℕ} {km : LabelMap h w} {r : Fin h} {c : Fin w}
    (h0 : km r c ≠ 0) : fillHoles km r c = km r c := by
  unfold fillHoles
  rw [if_neg h0]

theorem fillHoles_val {h w : ℕ} (km : LabelMap h w) (r : Fin h) (c : Fin w) :
    ∃ p : Fin h × Fin w, fillHoles km r c = km p.1 p.2 := by
  unfold fillHoles
  by_cases h0 : km r c = 0
  · rw [if_pos h0]
    exact ⟨nearestAssigned km (r, c), rfl⟩
  · rw [if_neg h0]
    exact ⟨(r, c), rfl⟩

theorem renumberStage_pos {h w : ℕ} {km : LabelMap h w}
    (hz : ∃ p : Fin h × Fin w, km p.1 p.2 ≠ 0) (r : Fin h) (c : Fin w) :
    1 ≤ renumberStage km r c ∧ renumberStage km r c ≤ (sortedIds km).length := by
  have hz' : ∃ p : Fin h × Fin w, kmRen km p.1 p.2 ≠ 0 := by
    obtain ⟨p0, hp0⟩ := hz
    exact ⟨p0, (kmRen_ne_zero_iff p0.1 p0.2).mpr hp0⟩
  have hnz : renumberStage km r c ≠ 0 := fillHoles_ne_zero hz' r c
  obtain ⟨q, hq⟩ := fillHoles_val (kmRen km) r c
  unfold renumberStage at hnz ⊢
  rw [hq] at hnz ⊢
  by_cases hm : km q.1 q.2 ∈ sortedIds km
  · have hb := idRemap_mem_bounds hm
    exact ⟨hb.1, hb.2⟩
  · exfalso
    apply hnz
    show idRemap km (km q.1 q.2) = 0
    exact idRemap_not_mem hm

theorem renumberStage_attains {h w : ℕ} {km : LabelMap h w} (m : ℕ)
    (h1 : 1 ≤ m) (h2 : m ≤ (sortedIds km).length) :
    ∃ p : Fin h × Fin w, renumberStage km p.1 p.2 = m := by
  obtain ⟨v, hvmem, hvmap⟩ := idRemap_surj km m h1 h2
  obtain ⟨hvne, q, hq⟩ := mem_sortedIds.mp hvmem
  refine ⟨q, ?_⟩
  have hren : kmRen km q.1 q.2 = m := by
    unfold kmRen
    rw [hq]
    exact hvmap
  unfold renumberStage
  rw [fillHoles_of_ne_zero (by rw [hren]; omega)]
  exact hren

theorem sortedIds_len_pos {h w : ℕ} {km : LabelMap h w}
    (hz : ∃ p : Fin h × Fin w, km p.1 p.2 ≠ 0) : 1 ≤ (sortedIds km).length := by
  obtain ⟨p, hp⟩ := hz
  have : km p.1 p.2 ∈ sortedIds km := mem_sortedIds.mpr ⟨hp, p, rfl⟩
  have hne := List.ne_nil_of_mem this
  have := List.length_pos.mpr hne
  omega

theorem numKingdoms_renumber {h w : ℕ} {km : LabelMap h w}
    (hz : ∃ p : Fin h × Fin w, km p.1 p.2 ≠ 0) :
    numKingdoms (renumberStage km) = (sortedIds km).length := by
  apply le_antisymm
  · show (Finset.univ.sup fun p : Fin h × Fin w => renumberStage km p.1 p.2) ≤
      (sortedIds km).length
    exact Finset.sup_le fun p _ => (renumberStage_pos hz p.1 p.2).2
  · obtain ⟨p, hp⟩ := renumberStage_attains _ (sortedIds_len_pos hz) (le_refl _)
    calc (sortedIds km).length = renumberStage km p.1 p.2 := hp.symm
      _ ≤ numKingdoms (renumberStage km) := by
        exact Finset.le_sup (f := fun q : Fin h × Fin w => renumberStage km q.1 q.2)
          (Finset.mem_univ p)

/-- C1.  Tiling invariant: on any label field that reaches step 16 with at
least one assigned pixel (step 7 guarantees every constructed kingdom mask is
non-empty), every pixel of the renumbered-and-filled final label map carries
exactly one Kingdom ID in `[1, num_kingdoms]` and is never the background 0. -/
theorem tilingInvariant {h w : ℕ} (km : LabelMap h w)
    (hz : ∃ p : Fin h × Fin w, km p.1 p.2 ≠ 0) :
    ∀ (r : Fin h) (c : Fin w),
      renumberStage km r c ≠ 0 ∧
      1 ≤ renumberStage km r c ∧
      renumberStage km r c ≤ numKingdoms (renumberStage km) := by
  intro r c
  have hb := renumberStage_pos hz r c
  refine ⟨by omega, hb.1, ?_⟩
  rw [numKingdoms_renumber hz]
  exact hb.2

/-- Witness for C1 on a concrete 2x2 label field with a hole. -/
theorem tilingInvariant_witness :
    (∃ p : Fin 2 × Fin 2,
      (fun (r : Fin 2) (c : Fin 2) => if r = c then 5 else 0) p.1 p.2 ≠ 0) ∧
    (∀ (r : Fin 2) (c : Fin 2),
      renumberStage (fun (r : Fin 2) (c : Fin 2) => if r = c then 5 else 0) r c ≠ 0 ∧
      1 ≤ renumberStage (fun (r : Fin 2) (c : Fin 2) => if r = c then 5 else 0) r c ∧
      renumberStage (fun (r : Fin 2) (c : Fin 2) => if r = c then 5 else 0) r c ≤
        numKingdoms (renumberStage (fun (r : Fin 2) (c : Fin 2) => if r = c then 5 else 0))) :=
  ⟨by decide, tilingInvariant _ (by decide)⟩

/-- C4.  ID density: the set of ids occurring in the final label map is
exactly the contiguous range `[1, num_kingdoms]`, and every such id labels a
non-empty pixel set. -/
theorem idDensity {h w : ℕ} (km : LabelMap h w)
    (hz : ∃ p : Fin h × Fin w, km p.1 p.2 ≠ 0) :
    Finset.image (fun p : Fin h × Fin w => renumberStage km p.1 p.2) Finset.univ =
      Finset.Icc 1 (numKingdoms (renumberStage km)) ∧
    ∀ i, 1 ≤ i → i ≤ numKingdoms (renumberStage km) →
      0 < countPix (renumberStage km) i := by
  constructor
  · apply Finset.ext
    intro i
    rw [Finset.mem_image, Finset.mem_Icc]
    constructor
    · rintro ⟨p, _, hp⟩
      have hb := renumberStage_pos hz p.1 p.2
      rw [numKingdoms_renumber hz]
      omega
    · rintro ⟨h1, h2⟩
      rw [numKingdoms_renumber hz] at h2
      obtain ⟨p, hp⟩ := renumberStage_attains i h1 h2
      exact ⟨p, Finset.mem_univ p, hp⟩
  · intro i h1 h2
    rw [numKingdoms_renumber hz] at h2
    obtain ⟨p, hp⟩ := renumberStage_attains i h1 h2
    exact countPix_pos_iff.mpr ⟨p, hp⟩

/-- Witness for C4 on a concrete 2x2 label field with sparse ids. -/
theorem idDensity_witness :
    (∃ p : Fin 2 × Fin 2,
      (fun (r : Fin 2) (c : Fin 2) => if r = c then 9 else 4) p.1 p.2 ≠ 0) ∧
    (Finset.image
        (fun p : Fin 2 × Fin 2 =>
          renumberStage (fun (r : Fin 2) (c : Fin 2) => if r = c then 9 else 4) p.1 p.2)
        Finset.univ =
      Finset.Icc 1
        (numKingdoms (renumberStage (fun (r : Fin 2) (c : Fin 2) => if r = c then 9 else 4))) ∧
    ∀ i, 1 ≤ i →
      i ≤ numKingdoms (renumberStage (fun (r : Fin 2) (c : Fin 2) => if r = c then 9 else 4)) →
      0 < countPix (renumberStage (fun (r : Fin 2) (c : Fin 2) => if r = c then 9 else 4)) i) :=
  ⟨by decide, idDensity _ (by decide)⟩

/-! ### Idempotence of the renumbering stage (claim C6) -/

theorem sorted_le_range' (s n : ℕ) : List.Sorted (· ≤ ·) (List.range' s n) :=
  (List.pairwise_lt_range' s n).imp le_of_lt

theorem lookup_numberFrom_range' :
    ∀ (n k v : ℕ), k ≤ v → v < k + n →
      (numberFrom k (List.range' k n)).lookup v = some v
  | 0, _, _, h1, h2 => by omega
  | n + 1, k, v, h1, h2 => by
    rw [List.range'_succ]
    by_cases hv : v = k
    · subst hv
      simp [numberFrom, List.lookup]
    · rw [numberFrom]
      simp only [List.lookup, beq_false_of_ne hv]
      exact lookup_numberFrom_range' n (k + 1) v (by omega) (by omega)

theorem sortedIds_of_dense {h w : ℕ} {km : LabelMap h w} {n : ℕ}
    (hall : ∀ (r : Fin h) (c : Fin w), 1 ≤ km r c ∧ km r c ≤ n)
    (hdense : ∀ i ∈ Finset.Icc 1 n, ∃ p : Fin h × Fin w, km p.1 p.2 = i) :
    sortedIds km = List.range' 1 n := by
  have hperm : (sortedIds km).Perm (List.range' 1 n) := by
    rw [List.perm_ext_iff_of_nodup (sortedIds_nodup km) (List.nodup_range' 1 n)]
    intro v
    rw [mem_sortedIds, List.mem_range'_1]
    constructor
    · rintro ⟨hne, p, hp⟩
      have := hall p.1 p.2
      rw [hp] at this
      omega
    · rintro ⟨h1, h2⟩
      obtain ⟨p, hp⟩ := hdense v (Finset.mem_Icc.mpr ⟨h1, by omega⟩)
      exact ⟨by omega, p, hp⟩
  exact List.eq_of_perm_of_sorted hperm (sortedIds_sorted km) (sorted_le_range' 1 n)

theorem renumberStage_dense_id {h w : ℕ} (km : LabelMap h w) (n : ℕ)
    (hall : ∀ (r : Fin h) (c : Fin w), 1 ≤ km r c ∧ km r c ≤ n)
    (hdense : ∀ i ∈ Finset.Icc 1 n, ∃ p : Fin h × Fin w, km p.1 p.2 = i) :
    renumberStage km = km := by
  have hids := sortedIds_of_dense hall hdense
  have hren : kmRen km = km := by
    funext r c
    unfold kmRen idRemap
    rw [remapFold_eq, hids]
    have h1 := (hall r c).1
    have h2 := (hall r c).2
    rw [lookup_numberFrom_range' n 1 (km r c) h1 (by omega)]
    rfl
  unfold renumberStage
  rw [hren]
  funext r c
  exact fillHoles_of_ne_zero (by have := (hall r c).1; omega)

/-- C6.  Idempotent renumbering: on a label field whose ids already form the
dense range `[1, n]` with no zero pixel, step 16 (renumber plus orphan fill)
is the identity, and applying it twice equals applying it once. -/
theorem idempotentRenumber {h w : ℕ} (km : LabelMap h w) (n : ℕ)
    (hall : ∀ (r : Fin h) (c : Fin w), 1 ≤ km r c ∧ km r c ≤ n)
    (hdense : ∀ i ∈ Finset.Icc 1 n, ∃ p : Fin h × Fin w, km p.1 p.2 = i) :
    renumberStage km = km ∧
    renumberStage (renumberStage km) = renumberStage km := by
  have h1 := renumberStage_dense_id km n hall hdense
  refine ⟨h1, ?_⟩
  rw [h1]
  exact h1

/-- Witness for C6 on a concrete already-dense 2x2 label field. -/
theorem idempotentRenumber_witness :
    ((∀ (r : Fin 2) (c : Fin 2),
        1 ≤ (fun (r : Fin 2) (c : Fin 2) => if r = c then 1 else 2) r c ∧
        (fun (r : Fin 2) (c : Fin 2) => if r = c then 1 else 2) r c ≤ 2) ∧
      (∀ i ∈ Finset.Icc 1 2,
        ∃ p : Fin 2 × Fin 2,
          (fun (r : Fin 2) (c : Fin 2) => if r = c then 1 else 2) p.1 p.2 = i)) ∧
    (renumberStage (fun (r : Fin 2) (c : Fin 2) => if r = c then 1 else 2) =
        (fun (r : Fin 2) (c : Fin 2) => if r = c then 1 else 2) ∧
      renumberStage (renumberStage (fun (r : Fin 2) (c : Fin 2) => if r = c then 1 else 2)) =
        renumberStage (fun (r : Fin 2) (c : Fin 2) => if r = c then 1 else 2)) :=
  ⟨⟨by decide, by decide⟩, idempotentRenumber _ 2 (by decide) (by decide)⟩

/-! ### Export loop (lines 536-588, claim C5)

The export loop walks `kid in range(1, num_k + 1)`, skips empty ids, writes a
binary 0/255 mask per kingdom, and records `area_pixels = mask.sum()` in the
JSON entry.  Only the id and pixel-count fields matter to claim C5. -/

/-- The id / pixel-count part of one `region_data.json` kingdom entry. -/
structure KEntry where
  kid : ℕ
  area_pixels : ℕ

/-- The exported 0/255 binary mask of one kingdom id (line 551). -/
def maskPix {h w : ℕ} (km : LabelMap h w) (k : ℕ) : LabelMap h w :=
  fun r c => if km r c = k then 255 else 0

/-- The kingdom entries produced by the export loop, in id order; empty ids
are skipped by the `if size == 0: continue` guard (lines 538-542). -/
def exportEntries {h w : ℕ} (km : LabelMap h w) : List KEntry :=
  (List.range' 1 (numKingdoms km)).filterMap fun k =>
    if countPix km k = 0 then none else some ⟨k, countPix km k⟩

theorem countPix_maskPix {h w : ℕ} (km : LabelMap h w) (k : ℕ) :
    countPix (maskPix km k) 255 = countPix km k := by
  unfold countPix
  congr 1
  apply Finset.filter_congr
  intro p _
  unfold maskPix
  by_cases hp : km p.1 p.2 = k
  · simp [hp]
  · simp [hp]

theorem filterMap_all_some {α β : Type} (f : α → Option β) (g : α → β) :
    ∀ (l : List α), (∀ x ∈ l, f x = some (g x)) → l.filterMap f = l.map g
  | [], _ => rfl
  | x :: t, hall => by
    rw [List.filterMap_cons_some (hall x (List.mem_cons_self _ _)), List.map_cons,
      filterMap_all_some f g t (fun y hy => hall y (List.mem_cons_of_mem _ hy))]

/-- C5.  Mask/metadata consistency of the export: every entry's `area_pixels`
equals both the pixel count of its id in the final label map and the pixel
count of its exported 0/255 mask and is positive; the entry ids are exactly
`range(1, num_k + 1)` in order with no duplicates; and every id present in
the label map appears among the entry ids. -/
theorem maskMetadataConsistency {h w : ℕ} (km : LabelMap h w)
    (hz : ∃ p : Fin h × Fin w, km p.1 p.2 ≠ 0) :
    (∀ e ∈ exportEntries (renumberStage km),
      e.area_pixels = countPix (renumberStage km) e.kid ∧
      e.area_pixels = countPix (maskPix (renumberStage km) e.kid) 255 ∧
      0 < e.area_pixels)
    ∧ (exportEntries (renumberStage km)).map KEntry.kid =
        List.range' 1 (numKingdoms (renumberStage km))
    ∧ ((exportEntries (renumberStage km)).map KEntry.kid).Nodup
    ∧ ∀ (r : Fin h) (c : Fin w),
        renumberStage km r c ∈ (exportEntries (renumberStage km)).map KEntry.kid := by
  have hcnt : ∀ k ∈ List.range' 1 (numKingdoms (renumberStage km)),
      0 < countPix (renumberStage km) k := by
    intro k hk
    rw [List.mem_range'_1] at hk
    have h2 : k ≤ (sortedIds km).length := by
      have := numKingdoms_renumber hz
      omega
    obtain ⟨p, hp⟩ := renumberStage_attains k hk.1 h2
    exact countPix_pos_iff.mpr ⟨p, hp⟩
  have hmap : exportEntries (renumberStage km) =
      (List.range' 1 (numKingdoms (renumberStage km))).map
        (fun k => ⟨k, countPix (renumberStage km) k⟩) := by
    unfold exportEntries
    apply filterMap_all_some
    intro k hk
    rw [if_neg (by have := hcnt k hk; omega)]
  have hkid : (exportEntries (renumberStage km)).map KEntry.kid =
      List.range' 1 (numKingdoms (renumberStage km)) := by
    rw [hmap, List.map_map]
    exact List.map_id _
  refine ⟨?_, hkid, ?_, ?_⟩
  · intro e he
    rw [hmap, List.mem_map] at he
    obtain ⟨k, hk, hke⟩ := he
    subst hke
    exact ⟨rfl, (countPix_maskPix _ _).symm, hcnt k hk⟩
  · rw [hkid]
    exact List.nodup_range' 1 _
  · intro r c
    rw [hkid, List.mem_range'_1]
    have hb := renumberStage_pos hz r c
    have := numKingdoms_renumber hz
    omega

/-- Witness for C5 on a concrete 2x2 label field. -/
theorem maskMetadataConsistency_witness :
    (∃ p : Fin 2 × Fin 2,
      (fun (r : Fin 2) (c : Fin 2) => if r = c then 3 else 8) p.1 p.2 ≠ 0) ∧
    ((∀ e ∈ exportEntries (renumberStage (fun (r : Fin 2) (c : Fin 2) => if r = c then 3 else 8)),
        e.area_pixels =
          countPix (renumberStage (fun (r : Fin 2) (c : Fin 2) => if r = c then 3 else 8)) e.kid ∧
        e.area_pixels =
          countPix (maskPix (renumberStage (fun (r : Fin 2) (c : Fin 2) => if r = c then 3 else 8))
            e.kid) 255 ∧
        0 < e.area_pixels)
      ∧ (exportEntries (renumberStage (fun (r : Fin 2) (c : Fin 2) => if r = c then 3 else 8))).map
            KEntry.kid =
          List.range' 1
            (numKingdoms (renumberStage (fun (r : Fin 2) (c : Fin 2) => if r = c then 3 else 8)))
      ∧ ((exportEntries (renumberStage (fun (r : Fin 2) (c : Fin 2) => if r = c then 3 else 8))).map
            KEntry.kid).Nodup
      ∧ ∀ (r : Fin 2) (c : Fin 2),
          renumberStage (fun (r : Fin 2) (c : Fin 2) => if r = c then 3 else 8) r c ∈
            (exportEntries
              (renumberStage (fun (r : Fin 2) (c : Fin 2) => if r = c then 3 else 8))).map
              KEntry.kid) :=
  ⟨by decide, maskMetadataConsistency _ (by decide)⟩

/-! ### Coordinate-anchored post-merge probes (lines 361-502)

Steps 11, 14 and 15 read the label map at fixed literal coordinates with no
bounds check; NumPy raises `IndexError` when a literal index reaches the
array extent.  The embedding performs each scalar read through `readKm`,
which returns `Except.error (row, col)` exactly when the read is out of
bounds.  Steps 12 and 13 (Orthanc carve-out, Sea of Rhun extraction) only
use slicing and whole-array masking, which cannot raise, and they preserve
the array shape; they enter the embedding as opaque shape-preserving
transforms `t12`, `t13`, as does everything before step 11 (`tPre`).  The
region mean colors taken from `img_rgb` in step 15 enter as `mc`. -/

/-- One NumPy scalar read `km[r, c]` with literal nonnegative indices. -/
def readKm {h w : ℕ} (km : LabelMap h w) (r c : ℕ) : Except (ℕ × ℕ) ℕ :=
  if hr : r < h then
    if hc : c < w then Except.ok (km ⟨r, hr⟩ ⟨c, hc⟩)
    else Except.error (r, c)
  else Except.error (r, c)

/-- In-place relabeling `km[km == a] = b`. -/
def relabel {h w : ℕ} (km : LabelMap h w) (a b : ℕ) : LabelMap h w :=
  fun r c => if km r c = a then b else km r c

/-- Step 11 (lines 361-374): probe (395, 796) and (452, 769); when both ids
are nonzero and distinct, merge the smaller region into the larger. -/
def mistyMerge {h w : ℕ} (km : LabelMap h w) : Except (ℕ × ℕ) (LabelMap h w) :=
  match readKm km 395 796 with
  | Except.error rc => Except.error rc
  | Except.ok a =>
    match readKm km 452 769 with
    | Except.error rc => Except.error rc
    | Except.ok b =>
      if a ≠ b ∧ 0 < a ∧ 0 < b then
        if countPix km b ≤ countPix km a then Except.ok (relabel km b a)
        else Except.ok (relabel km a b)
      else Except.ok km

/-- Step 14 (lines 469-477): probe (515, 1708) and (565, 1638); merge the
dark spot into main Rhun when it is a small distinct nonzero region. -/
def rhunDarkMerge {h w : ℕ} (km : LabelMap h w) : Except (ℕ × ℕ) (LabelMap h w) :=
  match readKm km 515 1708 with
  | Except.error rc => Except.error rc
  | Except.ok de =>
    match readKm km 565 1638 with
    | Except.error rc => Except.error rc
    | Except.ok mr =>
      if de ≠ mr ∧ 0 < de ∧ 0 < mr then
        if countPix km de < 20000 then Except.ok (relabel km de mr) else Except.ok km
      else Except.ok km

/-- Step 15 (lines 479-502): probe (579, 865) and (592, 850) (and, when they
differ, (265, 845) whose value the `pass` branch discards), then re-probe
(579, 865) and (265, 845) and merge the smaller region into the larger when
both are small and their mean colors are within distance 40 (squared 1600). -/
def isengardMerge {h w : ℕ} (mc : ℕ → Color) (km : LabelMap h w) :
    Except (ℕ × ℕ) (LabelMap h w) :=
  match readKm km 579 865 with
  | Except.error rc => Except.error rc
  | Except.ok i1 =>
    match readKm km 592 850 with
    | Except.error rc => Except.error rc
    | Except.ok n1 =>
      match (if i1 ≠ n1 then
          match readKm km 265 845 with
          | Except.error rc => Except.error rc
          | Except.ok _ => Except.ok ()
        else Except.ok ()) with
      | Except.error rc => Except.error rc
      | Except.ok _ =>
        match readKm km 579 865 with
        | Except.error rc => Except.error rc
        | Except.ok a =>
          match readKm km 265 845 with
          | Except.error rc => Except.error rc
          | Except.ok b =>
            if a ≠ b ∧ 0 < a ∧ 0 < b then
              if countPix km a < 30000 ∧ countPix km b < 30000 then
                if distSq (mc a) (mc b) < 1600 then
                  if countPix km b ≤ countPix km a then Except.ok (relabel km b a)
                  else Except.ok (relabel km a b)
                else Except.ok km
              else Except.ok km
            else Except.ok km

/-- Steps 10-15 as executed after segmentation: the opaque stages, then the
three probing steps in source order. -/
def probePhase {h w : ℕ} (tPre t12 t13 : LabelMap h w → LabelMap h w)
    (mc : ℕ → Color) (km0 : LabelMap h w) : Except (ℕ × ℕ) (LabelMap h w) :=
  match mistyMerge (tPre km0) with
  | Except.error rc => Except.error rc
  | Except.ok km1 =>
    match rhunDarkMerge (t13 (t12 km1)) with
    | Except.error rc => Except.error rc
    | Except.ok km2 => isengardMerge mc km2

/-- Error test on an `Except` result. -/
def isErr {α : Type} : Except (ℕ × ℕ) α → Bool
  | Except.error _ => true
  | Except.ok _ => false

theorem readKm_ok_bounds {h w : ℕ} {km : LabelMap h w} {r c v : ℕ}
    (hok : readKm km r c = Except.ok v) : r < h ∧ c < w := by
  unfold readKm at hok
  by_cases hr : r < h
  · by_cases hc : c < w
    · exact ⟨hr, hc⟩
    · rw [dif_pos hr, dif_neg hc] at hok
      simp at hok
  · rw [dif_neg hr] at hok
    simp at hok

theorem mistyMerge_ok_bounds {h w : ℕ} {km km' : LabelMap h w}
    (hok : mistyMerge km = Except.ok km') :
    395 < h ∧ 796 < w ∧ 452 < h ∧ 769 < w := by
  unfold mistyMerge at hok
  cases h1 : readKm km 395 796 with
  | error rc => rw [h1] at hok; simp at hok
  | ok a =>
    rw [h1] at hok
    cases h2 : readKm km 452 769 with
    | error rc => rw [h2] at hok; simp at hok
    | ok b =>
      have hb1 := readKm_ok_bounds h1
      have hb2 := readKm_ok_bounds h2
      exact ⟨hb1.1, hb1.2, hb2.1, hb2.2⟩

theorem rhunDarkMerge_ok_bounds {h w : ℕ} {km km' : LabelMap h w}
    (hok : rhunDarkMerge km = Except.ok km') :
    515 < h ∧ 1708 < w ∧ 565 < h ∧ 1638 < w := by
  unfold rhunDarkMerge at hok
  cases h1 : readKm km 515 1708 with
  | error rc => rw [h1] at hok; simp at hok
  | ok de =>
    rw [h1] at hok
    cases h2 : readKm km 565 1638 with
    | error rc => rw [h2] at hok; simp at hok
    | ok mr =>
      have hb1 := readKm_ok_bounds h1
      have hb2 := readKm_ok_bounds h2
      exact ⟨hb1.1, hb1.2, hb2.1, hb2.2⟩

theorem isengardMerge_ok_bounds {h w : ℕ} {mc : ℕ → Color} {km km' : LabelMap h w}
    (hok : isengardMerge mc km = Except.ok km') :
    579 < h ∧ 865 < w ∧ 592 < h ∧ 850 < w := by
  unfold isengardMerge at hok
  cases h1 : readKm km 579 865 with
  | error rc => rw [h1] at hok; simp at hok
  | ok i1 =>
    rw [h1] at hok
    cases h2 : readKm km 592 850 with
    | error rc => rw [h2] at hok; simp at hok
    | ok n1 =>
      have hb1 := readKm_ok_bounds h1
      have hb2 := readKm_ok_bounds h2
      exact ⟨hb1.1, hb1.2, hb2.1, hb2.2⟩

theorem probePhase_ok_bounds {h w : ℕ}
    {tPre t12 t13 : LabelMap h w → LabelMap h w} {mc : ℕ → Color}
    {km0 km' : LabelMap h w}
    (hok : probePhase tPre t12 t13 mc km0 = Except.ok km') :
    (395 < h ∧ 796 < w ∧ 452 < h ∧ 769 < w) ∧
    (515 < h ∧ 1708 < w ∧ 565 < h ∧ 1638 < w) ∧
    (579 < h ∧ 865 < w ∧ 592 < h ∧ 850 < w) := by
  cases h1 : mistyMerge (tPre km0) with
  | error rc =>
    have he : probePhase tPre t12 t13 mc km0 = Except.error rc := by
      unfold probePhase
      rw [h1]
    rw [he] at hok
    simp at hok
  | ok km1 =>
    have he : probePhase tPre t12 t13 mc km0 =
        (match rhunDarkMerge (t13 (t12 km1)) with
         | Except.error rc => Except.error rc
         | Except.ok km2 => isengardMerge mc km2) := by
      unfold probePhase
      rw [h1]
    rw [he] at hok
    cases h2 : rhunDarkMerge (t13 (t12 km1)) with
    | error rc =>
      rw [h2] at hok
      simp at hok
    | ok km2 =>
      rw [h2] at hok
      have hok2 : isengardMerge mc km2 = Except.ok km' := hok
      exact ⟨mistyMerge_ok_bounds h1, rhunDarkMerge_ok_bounds h2,
        isengardMerge_ok_bounds hok2⟩

/-! ### Top-level pipeline trace (lines 38-50 and 527-656)

The pipeline as an effect trace: `cv2.imread` failure is the `none` case of
the decoded input (lines 42-45: report and return before anything else); a
successful decode runs the embedded stages, where an out-of-bounds probe
corresponds to the uncaught `IndexError` aborting the run; only a fully
successful run reaches `os.makedirs` and the export writes. -/

/-- One observable side effect of the pipeline. -/
inductive PipeEffect where
  | report (msg : String)
  | makeDir (path : String)
  | writeFile (path : String)

/-- Effects that touch the output directory. -/
def isOutEffect : PipeEffect → Bool
  | PipeEffect.makeDir _ => true
  | PipeEffect.writeFile _ => true
  | PipeEffect.report _ => false

/-- A successfully decoded input together with the segmentation stages that
the probe embedding treats as opaque shape-preserving transforms. -/
structure SegResult where
  hgt : ℕ
  wdt : ℕ
  km : LabelMap hgt wdt
  tPre : LabelMap hgt wdt → LabelMap hgt wdt
  t12 : LabelMap hgt wdt → LabelMap hgt wdt
  t13 : LabelMap hgt wdt → LabelMap hgt wdt
  meanColor : ℕ → Color

/-- The effect trace of `extract_kingdoms`. -/
def extractKingdomsRun (decoded : Option SegResult) (outputDir : String) :
    List PipeEffect :=
  match decoded with
  | none => [PipeEffect.report "Error: Could not load image"]
  | some s =>
    PipeEffect.report "Image loaded" ::
    match probePhase s.tPre s.t12 s.t13 s.meanColor s.km with
    | Except.error _ => [PipeEffect.report "IndexError: index out of bounds"]
    | Except.ok kmf =>
      PipeEffect.report "Final numbering" ::
      PipeEffect.makeDir outputDir ::
      PipeEffect.makeDir (outputDir ++ "/masks") ::
      PipeEffect.writeFile (outputDir ++ "/kingdom_label_map.png") ::
      ((exportEntries (renumberStage kmf)).map fun e =>
        PipeEffect.writeFile (outputDir ++ "/masks/kingdom_" ++ toString e.kid ++ ".png")) ++
      [PipeEffect.writeFile (outputDir ++ "/region_data.json"),
       PipeEffect.writeFile (outputDir ++ "/kingdom_colored.png"),
       PipeEffect.writeFile (outputDir ++ "/kingdom_overlay.png"),
       PipeEffect.writeFile (outputDir ++ "/kingdom_export.zip")]

/-- C8.  Fatal abort on decode failure: when the input image fails to decode,
the run consists of the single error report — no output directory is created
and no artifact is written. -/
theorem decodeFailureAborts (outputDir : String) :
    extractKingdomsRun none outputDir =
      [PipeEffect.report "Error: Could not load image"] ∧
    (extractKingdomsRun none outputDir).filter isOutEffect = [] :=
  ⟨rfl, rfl⟩

/-- C10.  Implicit bounds-safety of the coordinate probes: whenever the image
height or width does not strictly exceed one of the fixed probe coordinates,
the post-merge phase raises an index error, and the aborted run creates no
output directory and writes no artifact. -/
theorem coordProbeBounds (s : SegResult) (outputDir : String)
    (hviol : ∃ pr ∈ ([(395, 796), (452, 769), (515, 1708), (565, 1638), (579, 865)] :
        List (ℕ × ℕ)), s.hgt ≤ pr.1 ∨ s.wdt ≤ pr.2) :
    isErr (probePhase s.tPre s.t12 s.t13 s.meanColor s.km) = true ∧
    (extractKingdomsRun (some s) outputDir).filter isOutEffect = [] := by
  have herr : isErr (probePhase s.tPre s.t12 s.t13 s.meanColor s.km) = true := by
    cases hres : probePhase s.tPre s.t12 s.t13 s.meanColor s.km with
    | error rc => rfl
    | ok km' =>
      exfalso
      have hb := probePhase_ok_bounds hres
      obtain ⟨pr, hpr, hv⟩ := hviol
      simp only [List.mem_cons, List.not_mem_nil, or_false] at hpr
      obtain ⟨hb1, hb2, hb3⟩ := hb
      rcases hpr with h1 | h1 | h1 | h1 | h1 <;> subst h1 <;>
        rcases hv with hv | hv <;> simp at hv <;> omega
  refine ⟨herr, ?_⟩
  obtain ⟨rc, hres⟩ : ∃ rc, probePhase s.tPre s.t12 s.t13 s.meanColor s.km =
      Except.error rc := by
    cases hres2 : probePhase s.tPre s.t12 s.t13 s.meanColor s.km with
    | error rc => exact ⟨rc, rfl⟩
    | ok km' =>
      rw [hres2] at herr
      simp [isErr] at herr
  have he : extractKingdomsRun (some s) outputDir =
      [PipeEffect.report "Image loaded",
       PipeEffect.report "IndexError: index out of bounds"] := by
    simp only [extractKingdomsRun]
    rw [hres]
  rw [he]
  rfl

/-- Witness for C10 on a concrete decoded 100 x 2000 input. -/
theorem coordProbeBounds_witness :
    (∃ pr ∈ ([(395, 796), (452, 769), (515, 1708), (565, 1638), (579, 865)] :
        List (ℕ × ℕ)),
      (SegResult.mk 100 2000 (fun _ _ => 0) id id id (fun _ => (0, 0, 0))).hgt ≤ pr.1 ∨
      (SegResult.mk 100 2000 (fun _ _ => 0) id id id (fun _ => (0, 0, 0))).wdt ≤ pr.2) ∧
    (isErr (probePhase
        (SegResult.mk 100 2000 (fun _ _ => 0) id id id (fun _ => (0, 0, 0))).tPre
        (SegResult.mk 100 2000 (fun _ _ => 0) id id id (fun _ => (0, 0, 0))).t12
        (SegResult.mk 100 2000 (fun _ _ => 0) id id id (fun _ => (0, 0, 0))).t13
        (SegResult.mk 100 2000 (fun _ _ => 0) id id id (fun _ => (0, 0, 0))).meanColor
        (SegResult.mk 100 2000 (fun _ _ => 0) id id id (fun _ => (0, 0, 0))).km) = true ∧
      (extractKingdomsRun
          (some (SegResult.mk 100 2000 (fun _ _ => 0) id id id (fun _ => (0, 0, 0))))
          "./kingdom_export").filter isOutEffect = []) :=
  ⟨by decide,
    coordProbeBounds (SegResult.mk 100 2000 (fun _ _ => 0) id id id (fun _ => (0, 0, 0)))
      "./kingdom_export" (by decide)⟩

/-- Counterexample for C9: on a 50 x 50 input — in particular the uniform
mid-gray scenario, whose borderless segmentation yields the single-region
label map used here — the very first post-merge probe `km[395, 796]` is out
of bounds, so the run aborts with an index error instead of completing, and
no output artifact is written.  The pipeline therefore cannot "complete and
yield exactly 1 Kingdom" on a 50 x 50 image. -/
theorem uniformSmallImage_counterexample :
    probePhase id id id (fun _ => (128, 128, 128)) ((fun _ _ => 1) : LabelMap 50 50) =
      Except.error (395, 796) ∧
    (extractKingdomsRun
        (some (SegResult.mk 50 50 (fun _ _ => 1) id id id (fun _ => (128, 128, 128))))
        "./kingdom_export").filter isOutEffect = [] :=
  ⟨rfl, rfl⟩

/-- C9 (amended).  On any 50 x 50 input that reaches the post-merge stage, in
whatever segmentation state, the pipeline does not complete: the step-11
probe at row 395, column 796 exceeds the image bounds and raises an index
error before any output is produced. -/
theorem uniformSmallImage_amended :
    ∀ (km : LabelMap 50 50) (tPre t12 t13 : LabelMap 50 50 → LabelMap 50 50)
      (mc : ℕ → Color),
      probePhase tPre t12 t13 mc km = Except.error (395, 796) := by
  intro km tPre t12 t13 mc
  have h1 : readKm (tPre km) 395 796 = Except.error (395, 796) := by
    unfold readKm
    rw [dif_neg (by omega)]
  have h2 : mistyMerge (tPre km) = Except.error (395, 796) := by
    unfold mistyMerge
    rw [h1]
  unfold probePhase
  rw [h2]

end KingdomExtract
